import Mathlib

/-!
# Verification of the Statically Avatar worker

A shallow embedding of the avatar service (Cloudflare Worker, `index.js`):
Punycode decoding (RFC 3492 bootstring), grapheme-aware truncation,
avatar option parsing, XML escaping and SVG rendering.

JavaScript strings are modelled as lists of UTF-16 code units
(`List Nat`).  Machine numbers are modelled by `Nat`/`Int`; the
JavaScript code only performs integer arithmetic on the paths analysed
here, and never reaches the 2^53 precision limit of IEEE doubles on the
inputs the theorems talk about.
-/

/-- Code units of a Lean string literal, for writing concrete JS strings.
All literals used in this file are ASCII or BMP, where the UTF-16 unit
sequence coincides with the code-point sequence. -/
def strU (s : String) : List Nat := s.data.map Char.toNat

/-- UTF-16 encoding of one code point, as produced by
`String.fromCodePoint` for an in-range argument. -/
def utf16Encode (n : Nat) : List Nat :=
  if n < 0x10000 then [n]
  else [0xD800 + (n - 0x10000) / 0x400, 0xDC00 + (n - 0x10000) % 0x400]

/-! ## Punycode bootstring parameters (the `PUNYCODE` constant object) -/

def punyBase : Nat := 36
def punyTMin : Nat := 1
def punyTMax : Nat := 26
def punySkew : Nat := 38
def punyDamp : Nat := 700
def punyInitialBias : Nat := 72
def punyInitialN : Nat := 128
/-- The delimiter character `'-'`. -/
def punyDelim : Nat := 0x2D
/-- The recognition marker `"xn--"`. -/
def punyMarker : List Nat := strU "xn--"

/-- Errors raised by `punycodeDecode`.  The first three correspond to the
three explicit `throw` statements; `rangeErr` is the `RangeError` raised
by `String.fromCodePoint` when the computed code point exceeds
`0x10FFFF`. -/
inductive DecodeErr where
  | nonAsciiBasic
  | truncated
  | invalidDigit
  | rangeErr
  deriving DecidableEq, Repr

/-- `punycodeDigitToBasic`: numeric value of one base-36 digit;
`none` models the `Infinity` returned for an invalid digit. -/
def punycodeDigitToBasic (codePoint : Nat) : Option Nat :=
  if 0x30 ≤ codePoint ∧ codePoint ≤ 0x39 then some (codePoint - 0x30 + 26)
  else if 0x41 ≤ codePoint ∧ codePoint ≤ 0x5A then some (codePoint - 0x41)
  else if 0x61 ≤ codePoint ∧ codePoint ≤ 0x7A then some (codePoint - 0x61)
  else none

/-- The threshold `t` computed inside the decoding loop:
`k <= bias ? tMin : k >= bias + tMax ? tMax : k - bias`. -/
def punyThreshold (k bias : Nat) : Nat :=
  if k ≤ bias then punyTMin
  else if k ≥ bias + punyTMax then punyTMax
  else k - bias

/-- The `while (delta > threshold)` loop of `punycodAdapt`.  The loop
variable strictly decreases, so any fuel at least `delta` reaches the
exit condition; the function is always called with that much fuel. -/
def punycodAdaptLoop : Nat → Nat → Nat → Nat × Nat
  | 0, delta, k => (delta, k)
  | fuel + 1, delta, k =>
    if delta > ((punyBase - punyTMin) * punyTMax) / 2 then
      punycodAdaptLoop fuel (delta / (punyBase - punyTMin)) (k + punyBase)
    else (delta, k)

/-- `punycodAdapt(delta, numPoints, firstTime)`: the bias adaptation
function of RFC 3492 exactly as written in the source. -/
def punycodAdapt (delta numPoints : Nat) (firstTime : Bool) : Nat :=
  let d1 := if firstTime then delta / punyDamp else delta / 2
  let d2 := d1 + d1 / numPoints
  let (d3, k) := punycodAdaptLoop d2 d2 0
  k + ((punyBase - punyTMin + 1) * d3) / (d3 + punySkew)

/-- The inner `while (true)` loop of `punycodeDecode`: decode one
variable-length integer.  State `(bias, k, w, i)` as in the source;
returns the accumulated `i` and the unconsumed input. -/
def punyVarint : List Nat → Nat → Nat → Nat → Nat →
    Except DecodeErr (Nat × List Nat)
  | [], _, _, _, _ => .error .truncated
  | c :: rest, bias, k, w, i =>
    match punycodeDigitToBasic c with
    | none => .error .invalidDigit
    | some digit =>
      let i' := i + digit * w
      let t := punyThreshold k bias
      if digit < t then .ok (i', rest)
      else punyVarint rest bias (k + punyBase) (w * (punyBase - t)) i'

/-- The outer `while (index < input.length)` loop of `punycodeDecode`.
The output buffer is a list of one-element strings (the JS code pushes
`input.charAt(j)` and `String.fromCodePoint(n)`, both strings); `splice`
inserts at an element index.  `fuel` bounds the number of iterations;
every iteration consumes at least one input unit, so `fuel =
rest.length` always suffices (see `punyMain_fuel_irrel`). -/
def punyMain : Nat → List Nat → List (List Nat) → Nat → Nat → Nat →
    Except DecodeErr (List (List Nat))
  | _, [], output, _, _, _ => .ok output
  | 0, _ :: _, _, _, _, _ => .error .truncated
  | fuel + 1, c :: rest, output, i, n, bias =>
    match punyVarint (c :: rest) bias punyBase 1 i with
    | .error e => .error e
    | .ok (i', rest') =>
      let outputLength := output.length + 1
      let bias' := punycodAdapt (i' - i) outputLength (i == 0)
      let n' := n + i' / outputLength
      let i'' := i' % outputLength
      if n' > 0x10FFFF then .error .rangeErr
      else punyMain fuel rest' (output.insertIdx i'' (utf16Encode n')) (i'' + 1) n' bias'

/-- Index of the last `'-'` in the input, if any. -/
def lastIdxOf? : List Nat → Nat → Option Nat
  | [], _ => none
  | c :: rest, d =>
    match lastIdxOf? rest d with
    | some j => some (j + 1)
    | none => if c = d then some 0 else none

/-- `input.lastIndexOf('-')`, with the source's `if (basic < 0) basic = 0`
already applied. -/
def punyBasicIdx (input : List Nat) : Nat :=
  (lastIdxOf? input punyDelim).getD 0

/-- The `for (j = 0; j < basic; j++)` loop: copy the basic (ASCII)
portion into the output buffer, rejecting non-ASCII units. -/
def checkBasic : List Nat → Except DecodeErr (List (List Nat))
  | [] => .ok []
  | c :: rest =>
    if c ≥ 0x80 then .error .nonAsciiBasic
    else (checkBasic rest).map (fun out => [c] :: out)

/-- `punycodeDecode(input)`: the bootstring decoder of the source,
returning the decoded string (`output.join("")`) or the error raised. -/
def punycodeDecode (input : List Nat) : Except DecodeErr (List Nat) := do
  let basic := punyBasicIdx input
  let out0 ← checkBasic (input.take basic)
  let start := if basic > 0 then basic + 1 else 0
  let suffix := input.drop start
  let out ← punyMain suffix.length suffix out0 0 punyInitialN punyInitialBias
  return out.flatten

/-! ## Reference RFC 3492 encoder

Modelled from the spec: the repository only contains the decoder; §8 of
the spec states the round-trip law against "a reference encoder".  The
following is the bootstring encoder of RFC 3492 §6.3 with the same
parameters (base 36, tMin 1, tMax 26, skew 38, damp 700, initial bias
72, initial n 128), operating on the sequence of code points of the
input string and emitting lowercase digits. -/

/-- RFC 3492 digit-to-character: values 0..25 map to `a`..`z`,
26..35 map to `0`..`9` (lowercase flag set). -/
def punyDigitChar (d : Nat) : Nat :=
  if d < 26 then 0x61 + d else 0x30 + (d - 26)

/-- Encode one delta as a variable-length integer (the `while (true)`
generalized-variable-length-integer loop of RFC 3492 §6.3).  `q`
strictly decreases at every step, so fuel `q + 1` always suffices. -/
def encVarint : Nat → Nat → Nat → Nat → List Nat
  | 0, _, _, _ => []
  | fuel + 1, bias, k, q =>
    let t := punyThreshold k bias
    if q < t then [punyDigitChar q]
    else
      punyDigitChar (t + (q - t) % (punyBase - t)) ::
        encVarint fuel bias (k + punyBase) ((q - t) / (punyBase - t))

/-- The inner `for each code point c of the input` loop of RFC 3492
§6.3: `c < n` increments delta, `c = n` emits the pending delta and
adapts the bias.  Returns the emitted digits and the final
`(delta, h, bias)`. -/
def encInner (n b : Nat) : List Nat → Nat → Nat → Nat →
    (List Nat × Nat × Nat × Nat)
  | [], delta, h, bias => ([], delta, h, bias)
  | c :: xs, delta, h, bias =>
    if c < n then encInner n b xs (delta + 1) h bias
    else if c = n then
      let digits := encVarint (delta + 1) bias punyBase delta
      let bias' := punycodAdapt delta (h + 1) (h == b)
      let (digits', delta', h', bias'') := encInner n b xs 0 (h + 1) bias'
      (digits ++ digits', delta', h', bias'')
    else encInner n b xs delta h bias

/-- The least code point of `x` that is `≥ n` (RFC 3492: "let m = the
minimum code point >= n in the input"). -/
def minAbove (n : Nat) : List Nat → Option Nat
  | [] => none
  | c :: xs =>
    match minAbove n xs with
    | none => if n ≤ c then some c else none
    | some m => if n ≤ c then some (min c m) else some m

/-- The outer `while h < length(input)` loop of RFC 3492 §6.3.  Each
iteration handles all occurrences of one code point value, so `h`
strictly increases and fuel `x.length + 1` always suffices. -/
def encMain (x : List Nat) (b : Nat) : Nat → Nat → Nat → Nat → Nat → List Nat
  | 0, _, _, _, _ => []
  | fuel + 1, n, delta, h, bias =>
    if h < x.length then
      match minAbove n x with
      | none => []
      | some m =>
        let delta1 := delta + (m - n) * (h + 1)
        let (digits, delta2, h2, bias2) := encInner m b x delta1 h bias
        digits ++ encMain x b fuel (m + 1) (delta2 + 1) h2 bias2
    else []

/-- RFC 3492 encoding of a sequence of code points: the basic code
points (those `< 128`) in order, a delimiter if there was at least one
basic code point, then the encoded deltas. -/
def punycodeEncode (x : List Nat) : List Nat :=
  let basic := x.filter (fun c => c < punyInitialN)
  let b := basic.length
  let head := if b > 0 then basic ++ [punyDelim] else basic
  head ++ encMain x b (x.length + 1) punyInitialN 0 b punyInitialBias

/-! ## Scanner variant of the decoder (for the error analysis)

`punyScanMain` is `punyMain` with the `String.fromCodePoint` range check
removed and the computed code points collected; it isolates the three
errors the decoder raises by its own `throw` statements from the
`RangeError` raised by the JS runtime. -/

def punyScanMain : Nat → List Nat → List (List Nat) → Nat → Nat → Nat →
    Except DecodeErr (List (List Nat) × List Nat)
  | _, [], output, _, _, _ => .ok (output, [])
  | 0, _ :: _, _, _, _, _ => .error .truncated
  | fuel + 1, c :: rest, output, i, n, bias =>
    match punyVarint (c :: rest) bias punyBase 1 i with
    | .error e => .error e
    | .ok (i', rest') =>
      let outputLength := output.length + 1
      let bias' := punycodAdapt (i' - i) outputLength (i == 0)
      let n' := n + i' / outputLength
      let i'' := i' % outputLength
      match punyScanMain fuel rest' (output.insertIdx i'' (utf16Encode n')) (i'' + 1) n' bias' with
      | .error e => .error e
      | .ok (out, pts) => .ok (out, n' :: pts)

/-- The code points the decoding loop computes on `input`, ignoring the
`fromCodePoint` range check; errors are the decoder's own three throws. -/
def punyScan (input : List Nat) : Except DecodeErr (List Nat) := do
  let basic := punyBasicIdx input
  let out0 ← checkBasic (input.take basic)
  let start := if basic > 0 then basic + 1 else 0
  let suffix := input.drop start
  let (_, pts) ← punyScanMain suffix.length suffix out0 0 punyInitialN punyInitialBias
  return pts

/-- The encoded suffix: everything after the last delimiter (everything,
when there is no delimiter or it is at position 0). -/
def punySuffix (input : List Nat) : List Nat :=
  let basic := punyBasicIdx input
  input.drop (if basic > 0 then basic + 1 else 0)

/-- Spec condition: the label contains a non-ASCII unit in its basic
portion (before the last `'-'`). -/
def hasNonAsciiBasic (input : List Nat) : Bool :=
  (input.take (punyBasicIdx input)).any (fun c => 0x80 ≤ c)

/-- Spec condition: the encoded suffix contains a unit that is not a
valid base-36 digit. -/
def hasInvalidSuffixChar (input : List Nat) : Bool :=
  (punySuffix input).any (fun c => (punycodeDigitToBasic c).isNone)

/-! ## Punycode recognition and the non-fatal wrapper -/

/-- One unit of `String.prototype.toLowerCase`, restricted to the ASCII
range.  The full Unicode lowercase mapping sends no other code unit to
`x`, `n` or `-`, so the `startsWith("xn--")` test below is unaffected by
the restriction. -/
def jsToLowerUnit (c : Nat) : Nat :=
  if 0x41 ≤ c ∧ c ≤ 0x5A then c + 0x20 else c

/-- `str.toLowerCase()` (ASCII portion, see `jsToLowerUnit`). -/
def jsToLower (s : List Nat) : List Nat := s.map jsToLowerUnit

/-- `isPunycode(str)`: `str.toLowerCase().startsWith("xn--")`. -/
def isPunycode (str : List Nat) : Bool :=
  punyMarker.isPrefixOf (jsToLower str)

/-- `decodePunycodeIfNeeded(str)`: strip the `"xn--"` marker and decode,
falling back to the original string on any decode error. -/
def decodePunycodeIfNeeded (str : List Nat) : List Nat :=
  if !isPunycode str then str
  else
    match punycodeDecode (str.drop punyMarker.length) with
    | .ok decoded => decoded
    | .error _ => str

/-! ## Grapheme extraction

`Intl.Segmenter` is a host facility; the functions below take the
segmentation `seg` as a parameter.  `jsSpread` is the source's fallback
branch (`[...str]`), which groups a surrogate pair into one element and
every other unit into its own element. -/

def isHighSurrogate (c : Nat) : Bool := 0xD800 ≤ c ∧ c ≤ 0xDBFF
def isLowSurrogate (c : Nat) : Bool := 0xDC00 ≤ c ∧ c ≤ 0xDFFF

/-- The fallback segmentation `[...str]`: code-point grouping. -/
def jsSpread : List Nat → List (List Nat)
  | [] => []
  | [a] => [[a]]
  | a :: b :: rest =>
    if isHighSurrogate a ∧ isLowSurrogate b then [a, b] :: jsSpread rest
    else [a] :: jsSpread (b :: rest)

/-- A segmentation must reassemble the string it segments
(`join("")` of the segments is the original string). -/
def SegJoins (seg : List Nat → List (List Nat)) : Prop :=
  ∀ s, (seg s).flatten = s

/-- A segmentation must be stable on unit boundaries: re-segmenting an
initial run of segments yields those segments again.  This holds for
UAX #29 grapheme segmentation (boundaries depend only on preceding
context) and for code-point grouping. -/
def SegStable (seg : List Nat → List (List Nat)) : Prop :=
  ∀ s n, seg (((seg s).take n).flatten) = (seg s).take n

/-- `getFirstGraphemes(str, count)`:
`segments.slice(0, count).map(s => s.segment).join("")`. -/
def getFirstGraphemes (seg : List Nat → List (List Nat))
    (str : List Nat) (count : Nat) : List Nat :=
  ((seg str).take count).flatten

/-- `countGraphemes(str)`: the number of segments. -/
def countGraphemes (seg : List Nat → List (List Nat)) (str : List Nat) : Nat :=
  (seg str).length

/-! ## XML escaping -/

/-- The `xmlEntities` replacement for one character:
`str.replace(/[&<>"']/g, ...)` applied unit-wise. -/
def escapeChar (c : Nat) : List Nat :=
  if c = 0x26 then strU "&amp;"
  else if c = 0x3C then strU "&lt;"
  else if c = 0x3E then strU "&gt;"
  else if c = 0x22 then strU "&quot;"
  else if c = 0x27 then strU "&apos;"
  else [c]

/-- `escapeXml(str)`. -/
def escapeXml (str : List Nat) : List Nat := str.flatMap escapeChar

/-! ## `parseInt(s, 10)` and size resolution -/

/-- ECMAScript `StrWhiteSpaceChar` (whitespace and line terminators
skipped by `parseInt`). -/
def jsWhitespace (c : Nat) : Bool :=
  c = 0x09 ∨ c = 0x0A ∨ c = 0x0B ∨ c = 0x0C ∨ c = 0x0D ∨ c = 0x20 ∨
  c = 0xA0 ∨ c = 0x1680 ∨ (0x2000 ≤ c ∧ c ≤ 0x200A) ∨ c = 0x2028 ∨
  c = 0x2029 ∨ c = 0x202F ∨ c = 0x205F ∨ c = 0x3000 ∨ c = 0xFEFF

/-- The optional leading sign of the numeral scanned by `parseInt`. -/
def jsSignSplit : List Nat → Int × List Nat
  | [] => (1, [])
  | c :: r =>
    if c = 0x2D then (-1, r) else if c = 0x2B then (1, r) else (1, c :: r)

/-- `parseInt(value, 10)` per ECMA-262, on `searchParams.get("s")`
(which is `null` when the parameter is absent; `ToString(null)` is
`"null"`, which parses to `NaN`).  `none` models `NaN`.  The digit
strings appearing in the claims are far below the 2^53 double-precision
limit, so exact integer arithmetic is faithful. -/
def jsParseInt10 (value : Option (List Nat)) : Option Int :=
  let s := (value.getD (strU "null")).dropWhile jsWhitespace
  let sr := jsSignSplit s
  let digits := sr.2.takeWhile (fun c => 0x30 ≤ c ∧ c ≤ 0x39)
  if digits = [] then none
  else some (sr.1 * (digits.foldl (fun acc c => 10 * acc + (c - 0x30)) 0 : Nat))

def defaultsSize : Int := 60
def defaultsText : List Nat := strU "A"
def defaultsMaxTextLength : Nat := 2
def defaultsFontSizeRatio : ℚ := 9 / 10

/-- The size resolution of `parseAvatarOptions`:
`parseInt(url.searchParams.get("s"), 10) || DEFAULTS.size`, then
`Math.max(1, Math.min(size, 1000))`.  `NaN` and `±0` are falsy, so both
fall back to the default before clamping. -/
def parseSize (sParam : Option (List Nat)) : Int :=
  let size : Int :=
    match jsParseInt10 sParam with
    | none => defaultsSize
    | some v => if v = 0 then defaultsSize else v
  max 1 (min size 1000)

/-! ## Shape resolution

`styles[shape] || ""` is a JavaScript property lookup on an object
literal, which falls through to `Object.prototype` for keys naming an
inherited member; those members are all truthy, so `|| ""` does not
replace them.  `JsValue.protoMember` models such a lookup result. -/

inductive JsValue where
  | str (s : List Nat)
  | protoMember (name : List Nat)
  deriving DecidableEq, Repr

/-- The property names an object literal inherits from
`Object.prototype` (all bound to truthy function/object values). -/
def objectProtoProps : List (List Nat) :=
  [strU "constructor", strU "hasOwnProperty", strU "isPrototypeOf",
   strU "propertyIsEnumerable", strU "toLocaleString", strU "toString",
   strU "valueOf", strU "__proto__", strU "__defineGetter__",
   strU "__defineSetter__", strU "__lookupGetter__", strU "__lookupSetter__"]

def circleStyle : List Nat := strU "style=\"border-radius: 50%;\""
def roundedStyle : List Nat := strU "style=\"border-radius: 10px;\""

/-- `getShapeStyle(shape)`: `styles[shape] || ""`.  A `null` key is
converted to the string `"null"` by property lookup. -/
def getShapeStyle (shape : Option (List Nat)) : JsValue :=
  let key := shape.getD (strU "null")
  if key = strU "circle" then .str circleStyle
  else if key = strU "rounded" then .str roundedStyle
  else if key ∈ objectProtoProps then .protoMember key
  else .str []

/-! ## `decodeURIComponent` (ECMA-262 Decode) -/

def isHexDigit (c : Nat) : Bool :=
  (0x30 ≤ c ∧ c ≤ 0x39) ∨ (0x41 ≤ c ∧ c ≤ 0x46) ∨ (0x61 ≤ c ∧ c ≤ 0x66)

def hexVal (c : Nat) : Nat :=
  if c ≤ 0x39 then c - 0x30 else if c ≤ 0x46 then c - 0x41 + 10 else c - 0x61 + 10

/-- Read one `%HH` escape, returning the byte and the rest. -/
def hexPair? : List Nat → Option (Nat × List Nat)
  | h1 :: h2 :: r =>
    if isHexDigit h1 ∧ isHexDigit h2 then some (16 * hexVal h1 + hexVal h2, r)
    else none
  | _ => none

/-- Read one continuation byte, written as `%HH` with `0x80 ≤ HH ≤ 0xBF`. -/
def contByte? : List Nat → Option (Nat × List Nat)
  | c :: r =>
    if c = 0x25 then
      match hexPair? r with
      | some (b, r') => if 0x80 ≤ b ∧ b ≤ 0xBF then some (b, r') else none
      | none => none
    else none
  | [] => none

/-- Decode the continuation of a UTF-8 sequence with lead byte `b`,
enforcing the valid ranges of the first continuation byte (which rule
out overlong encodings, surrogate code points and values above
`0x10FFFF`). -/
def utf8Tail (b : Nat) (rest : List Nat) : Option (Nat × List Nat) :=
  if 0xC2 ≤ b ∧ b ≤ 0xDF then
    match contByte? rest with
    | some (b1, r) => some ((b - 0xC0) * 0x40 + (b1 - 0x80), r)
    | none => none
  else if 0xE0 ≤ b ∧ b ≤ 0xEF then
    match contByte? rest with
    | some (b1, r) =>
      let lo := if b = 0xE0 then 0xA0 else 0x80
      let hi := if b = 0xED then 0x9F else 0xBF
      if lo ≤ b1 ∧ b1 ≤ hi then
        match contByte? r with
        | some (b2, r') =>
          some ((b - 0xE0) * 0x1000 + (b1 - 0x80) * 0x40 + (b2 - 0x80), r')
        | none => none
      else none
    | none => none
  else if 0xF0 ≤ b ∧ b ≤ 0xF4 then
    match contByte? rest with
    | some (b1, r) =>
      let lo := if b = 0xF0 then 0x90 else 0x80
      let hi := if b = 0xF4 then 0x8F else 0xBF
      if lo ≤ b1 ∧ b1 ≤ hi then
        match contByte? r with
        | some (b2, r') =>
          match contByte? r' with
          | some (b3, r'') =>
            some ((b - 0xF0) * 0x40000 + (b1 - 0x80) * 0x1000 +
              (b2 - 0x80) * 0x40 + (b3 - 0x80), r'')
          | none => none
        | none => none
      else none
    | none => none
  else none

/-- `decodeURIComponent` per ECMA-262: literal units pass through, each
`%HH` escape contributes one byte, and byte sequences with a non-ASCII
lead byte must form valid UTF-8 or a `URIError` is thrown (modelled as
`.error ()`).  Every step consumes at least one unit, so fuel
`input.length + 1` always suffices. -/
def uriDecode : Nat → List Nat → Except Unit (List Nat)
  | _, [] => .ok []
  | 0, _ :: _ => .error ()
  | fuel + 1, c :: rest =>
    if c = 0x25 then
      match hexPair? rest with
      | none => .error ()
      | some (b, r) =>
        if b < 0x80 then (uriDecode fuel r).map (fun t => b :: t)
        else
          match utf8Tail b r with
          | none => .error ()
          | some (v, r') => (uriDecode fuel r').map (fun t => utf16Encode v ++ t)
    else (uriDecode fuel rest).map (fun t => c :: t)

/-- `decodeURIComponent(rawText)` with sufficient fuel. -/
def decodeURIComponent (s : List Nat) : Except Unit (List Nat) :=
  uriDecode (s.length + 1) s

/-! ## Option parsing, SVG rendering, request handling -/

def BASEPATH : List Nat := strU "/avatar/"

structure AvatarOptions where
  size : Int
  text : List Nat
  shape : Option (List Nat)
  isRootPath : Bool
  deriving DecidableEq, Repr

/-- The request URL, reduced to the parts the worker reads: the
pathname and the two query parameters it looks up (`null` when
absent). -/
structure UrlModel where
  pathname : List Nat
  sParam : Option (List Nat)
  shapeParam : Option (List Nat)

/-- `parseAvatarOptions(url)`.  The only fallible step is
`decodeURIComponent`, whose `URIError` is not caught anywhere. -/
def parseAvatarOptions (seg : List Nat → List (List Nat))
    (url : UrlModel) : Except Unit AvatarOptions := do
  let path := url.pathname
  let avatarText ←
    if BASEPATH.isPrefixOf path then do
      let rawText := path.drop BASEPATH.length
      let decodedText ← decodeURIComponent rawText
      let unicodeText := decodePunycodeIfNeeded decodedText
      pure (getFirstGraphemes seg unicodeText defaultsMaxTextLength)
    else pure defaultsText
  return { size := parseSize url.sParam,
           text := if avatarText = [] then defaultsText else avatarText,
           shape := url.shapeParam,
           isRootPath := path = strU "/" }

/-- `calculateFontSize(avatarSize, text)`:
`avatarSize * DEFAULTS.fontSizeRatio / Math.max(graphemeCount, 1)`,
in exact rational arithmetic. -/
def calculateFontSize (seg : List Nat → List (List Nat))
    (avatarSize : ℚ) (text : List Nat) : ℚ :=
  avatarSize * defaultsFontSizeRatio / max (countGraphemes seg text : ℚ) 1

def svgTmpl1 : List Nat :=
  strU "<?xml version=\"1.0\" standalone=\"no\"?>\n<!DOCTYPE svg PUBLIC \"-//W3C//DTD SVG 1.1//EN\" \"http://www.w3.org/Graphics/SVG/1.1/DTD/svg11.dtd\">\n<svg "
def svgTmpl2 : List Nat := strU " width=\""
def svgTmpl3 : List Nat := strU "\" height=\""
def svgTmpl4 : List Nat := strU "\" viewBox=\"0 0 "
def svgTmpl5 : List Nat := strU " "
def svgTmpl6 : List Nat :=
  strU "\" version=\"1.1\" xmlns=\"http://www.w3.org/2000/svg\">\n  <g>\n    <defs>\n      <linearGradient id=\"avatar\" x1=\"0\" y1=\"0\" x2=\"1\" y2=\"1\">\n        <stop offset=\"0%\" stop-color=\""
def svgTmpl7 : List Nat := strU "\"/>\n        <stop offset=\"100%\" stop-color=\""
def svgTmpl8 : List Nat := strU "\"/>\n      </linearGradient>\n    </defs>\n    <rect fill=\"url(#avatar)\" x=\"0\" y=\"0\" width=\""
def svgTmpl9 : List Nat := strU "\" height=\""
def svgTmpl10 : List Nat :=
  strU "\"/>\n    <text x=\"50%\" y=\"50%\" alignment-baseline=\"central\" dominant-baseline=\"central\" text-anchor=\"middle\" fill=\"#fff\" font-family=\"sans-serif\" font-size=\""
def svgTmpl11 : List Nat := strU "\">"
def svgTmpl12 : List Nat := strU "</text>\n  </g>\n</svg>"

/-- Decimal digits of a natural number (JS integer-to-string for the
small magnitudes occurring here). -/
def natToStrAux : Nat → Nat → List Nat
  | 0, _ => []
  | fuel + 1, n =>
    if n < 10 then [0x30 + n] else natToStrAux fuel (n / 10) ++ [0x30 + n % 10]

def natToStr (n : Nat) : List Nat := natToStrAux (n + 1) n

def intToStr (v : Int) : List Nat :=
  if v < 0 then 0x2D :: natToStr v.natAbs else natToStr v.natAbs

/-- `generateSvgAvatar({size, text, shapeStyle, color1, color2})`.
`numToStr` abstracts the host's number-to-string conversion applied to
the interpolated font size, and `jsShow` the host's stringification of
the shape-style lookup result (a string in the regular case, a function
or object when the lookup fell through to `Object.prototype`). -/
def generateSvgAvatar (seg : List Nat → List (List Nat))
    (numToStr : ℚ → List Nat) (jsShow : JsValue → List Nat)
    (size : Int) (text : List Nat) (shapeStyle : JsValue)
    (color1 color2 : List Nat) : List Nat :=
  let fontSize := calculateFontSize seg (size : ℚ) text
  let safeText := escapeXml text
  svgTmpl1 ++ jsShow shapeStyle ++ svgTmpl2 ++ intToStr size ++ svgTmpl3 ++
    intToStr size ++ svgTmpl4 ++ intToStr size ++ svgTmpl5 ++ intToStr size ++
    svgTmpl6 ++ color1 ++ svgTmpl7 ++ color2 ++ svgTmpl8 ++ intToStr size ++
    svgTmpl9 ++ intToStr size ++ svgTmpl10 ++ numToStr fontSize ++ svgTmpl11 ++
    safeText ++ svgTmpl12

structure JsResponse where
  body : List Nat
  contentType : List Nat
  cacheControl : List Nat
  deriving DecidableEq, Repr

def cacheNone : List Nat := strU "no-cache"
def cacheLongTerm : List Nat := strU "public, max-age=31536000, immutable"

/-- `createSvgResponse(svgContent, shouldCache)`. -/
def createSvgResponse (svgContent : List Nat) (shouldCache : Bool) : JsResponse :=
  { body := svgContent,
    contentType := strU "image/svg+xml; charset=utf-8",
    cacheControl := if shouldCache then cacheLongTerm else cacheNone }

/-- `handleRequest(request)`, from the parsed URL on.  The two random
gradient colors are inputs (the random source is injected); `seg`,
`numToStr` and `jsShow` are the host facilities described above.  An
uncaught exception surfaces as `.error ()`. -/
def handleRequest (seg : List Nat → List (List Nat))
    (numToStr : ℚ → List Nat) (jsShow : JsValue → List Nat)
    (url : UrlModel) (color1 color2 : List Nat) : Except Unit JsResponse := do
  let options ← parseAvatarOptions seg url
  let svgAvatar := generateSvgAvatar seg numToStr jsShow options.size
    options.text (getShapeStyle options.shape) color1 color2
  return createSvgResponse svgAvatar (!options.isRootPath)

/-! ## Predicates used in the theorem statements -/

/-- Every `&` in the string begins one of the five XML entities. -/
def ampOk : List Nat → Bool
  | [] => true
  | c :: rest =>
    (if c = 0x26 then
      (strU "amp;").isPrefixOf rest ∨ (strU "lt;").isPrefixOf rest ∨
      (strU "gt;").isPrefixOf rest ∨ (strU "quot;").isPrefixOf rest ∨
      (strU "apos;").isPrefixOf rest
     else true) && ampOk rest

/-- No unescaped XML-significant character: no `<`, `>`, `"` or `'` at
all, and every `&` introduces one of the five entities. -/
def xmlSafe (s : List Nat) : Bool :=
  s.all (fun c => c ≠ 0x3C ∧ c ≠ 0x3E ∧ c ≠ 0x22 ∧ c ≠ 0x27) && ampOk s

/-- Whether `punycodeDecode` returns normally. -/
def decodeSucceeds (input : List Nat) : Bool :=
  match punycodeDecode input with
  | .ok _ => true
  | .error _ => false

/-- Spec condition "truncated input": the scan runs out of input in the
middle of a variable-length integer. -/
def scanTruncated (input : List Nat) : Bool :=
  match punyScan input with
  | .error .truncated => true
  | _ => false

/-- The fourth failure condition: the scan completes but some computed
insertion code point exceeds `0x10FFFF`, the `String.fromCodePoint`
limit. -/
def scanRangeViolation (input : List Nat) : Bool :=
  match punyScan input with
  | .ok pts => pts.any (fun p => 0x10FFFF < p)
  | .error _ => false

instance exceptDecEq {ε α : Type} [DecidableEq ε] [DecidableEq α] :
    DecidableEq (Except ε α)
  | .ok x, .ok y => decidable_of_iff (x = y) (by simp)
  | .ok _, .error _ => isFalse (by simp)
  | .error _, .ok _ => isFalse (by simp)
  | .error e, .error f => decidable_of_iff (e = f) (by simp)

/-! # Theorems -/

theorem punyMarker_eq : punyMarker = [0x78, 0x6E, 0x2D, 0x2D] := rfl

/-! ## Generic list helpers -/

theorem takeWhile_eq_self_of_all {p : Nat → Bool} :
    ∀ {l : List Nat}, (∀ c ∈ l, p c = true) → l.takeWhile p = l := by
  intro l
  induction l with
  | nil => intro _; rfl
  | cons c t ih =>
    intro h
    rw [List.takeWhile_cons, h c (List.mem_cons_self c t)]
    simp [ih fun d hd => h d (List.mem_cons_of_mem c hd)]

theorem dropWhile_cons_of_neg {p : Nat → Bool} {c : Nat} {t : List Nat}
    (h : p c = false) : (c :: t).dropWhile p = c :: t := by
  rw [List.dropWhile_cons, h]
  simp

/-! ## Decimal printing round-trips through `parseInt` -/

theorem natToStrAux_all_digits :
    ∀ fuel n, ∀ c ∈ natToStrAux fuel n, 0x30 ≤ c ∧ c ≤ 0x39 := by
  intro fuel
  induction fuel with
  | zero => intro n c hc; simp [natToStrAux] at hc
  | succ f ih =>
    intro n c hc
    simp only [natToStrAux] at hc
    split at hc
    · next h =>
      simp only [List.mem_singleton] at hc
      omega
    · rw [List.mem_append] at hc
      rcases hc with h | h
      · exact ih _ _ h
      · simp only [List.mem_singleton] at h
        have : n % 10 < 10 := Nat.mod_lt _ (by omega)
        omega

theorem natToStrAux_foldl :
    ∀ fuel n a, n < fuel →
      (natToStrAux fuel n).foldl (fun acc c => 10 * acc + (c - 0x30)) a =
        a * 10 ^ (natToStrAux fuel n).length + n := by
  intro fuel
  induction fuel with
  | zero => intro n a h; omega
  | succ f ih =>
    intro n a h
    simp only [natToStrAux]
    split
    · next hlt => simp; omega
    · next hge =>
      have hdiv : n / 10 < f := by omega
      rw [List.foldl_append, ih (n / 10) a hdiv]
      simp only [List.foldl_cons, List.foldl_nil, List.length_append,
        List.length_singleton]
      have hmod : n % 10 < 10 := Nat.mod_lt _ (by omega)
      have : 10 * (n / 10) + n % 10 = n := Nat.div_add_mod n 10 ▸ by omega
      ring_nf
      omega

theorem natToStr_all_digits (n : Nat) :
    ∀ c ∈ natToStr n, 0x30 ≤ c ∧ c ≤ 0x39 :=
  natToStrAux_all_digits (n + 1) n

theorem natToStr_foldl (n : Nat) :
    (natToStr n).foldl (fun acc c => 10 * acc + (c - 0x30)) 0 = n := by
  have := natToStrAux_foldl (n + 1) n 0 (Nat.lt_succ_self n)
  simpa [natToStr] using this

theorem natToStr_ne_nil (n : Nat) : natToStr n ≠ [] := by
  simp only [natToStr, natToStrAux]
  split
  · simp
  · simp

theorem jsSignSplit_digit {c : Nat} (t : List Nat) (h1 : 0x30 ≤ c)
    (h2 : c ≤ 0x39) : jsSignSplit (c :: t) = (1, c :: t) := by
  simp only [jsSignSplit, if_neg (by omega : ¬c = 0x2D),
    if_neg (by omega : ¬c = 0x2B)]

theorem jsSignSplit_minus (t : List Nat) : jsSignSplit (0x2D :: t) = (-1, t) := by
  simp [jsSignSplit]

/-- `parseInt` reads back the decimal rendering of any integer. -/
theorem jsParseInt10_intToStr (v : Int) :
    jsParseInt10 (some (intToStr v)) = some v := by
  have hne := natToStr_ne_nil v.natAbs
  have hall := natToStr_all_digits v.natAbs
  have htw : (natToStr v.natAbs).takeWhile
      (fun c => decide (0x30 ≤ c ∧ c ≤ 0x39)) = natToStr v.natAbs :=
    takeWhile_eq_self_of_all (by intro d hd; have := hall d hd; simp; omega)
  by_cases hv : v < 0
  · simp only [intToStr, if_pos hv, jsParseInt10, Option.getD_some]
    rw [dropWhile_cons_of_neg (by simp [jsWhitespace]), jsSignSplit_minus]
    rw [htw, if_neg hne, natToStr_foldl]
    simp only [Option.some.injEq]
    omega
  · simp only [intToStr, if_neg hv, jsParseInt10, Option.getD_some]
    obtain ⟨c, t, h⟩ := List.exists_cons_of_ne_nil hne
    have hc := hall c (h ▸ List.mem_cons_self c t)
    rw [h, dropWhile_cons_of_neg (by simp [jsWhitespace]; omega),
      jsSignSplit_digit t hc.1 hc.2, ← h]
    rw [htw, if_neg hne, natToStr_foldl]
    simp only [Option.some.injEq]
    omega

theorem parseSize_intToStr (v : Int) (hv : v ≠ 0) :
    parseSize (some (intToStr v)) = max 1 (min v 1000) := by
  simp only [parseSize, jsParseInt10_intToStr, if_neg hv]

/-- The `size` field of successfully parsed options is always the value
of the size resolution applied to the `s` parameter. -/
theorem parseAvatarOptions_size (seg : List Nat → List (List Nat))
    (url : UrlModel) (opts : AvatarOptions)
    (h : parseAvatarOptions seg url = .ok opts) :
    opts.size = parseSize url.sParam := by
  simp only [parseAvatarOptions, bind, Except.bind, pure, Except.pure] at h
  split at h
  · cases hdec : decodeURIComponent (url.pathname.drop BASEPATH.length) with
    | ok d => rw [hdec] at h; cases h; rfl
    | error e => rw [hdec] at h; cases h
  · cases h; rfl

/-- C5: the parsed size is the integer value of `s` clamped into
[1, 1000], defaulting to 60 when `s` is absent or non-numeric — except
that an `s` parsing to integer 0 also falls back to 60 (`parseInt(...)
|| 60` treats 0 as falsy), rather than clamping to 1.  For every
nonzero integer value the clamping behaves as claimed (`-5 → 1`,
`9999 → 1000`). -/
theorem C5_size_clamping (v : Int) :
    parseSize none = 60 ∧
    parseSize (some (strU "abc")) = 60 ∧
    parseSize (some (strU "0")) = 60 ∧
    (v ≠ 0 → v < 1 → parseSize (some (intToStr v)) = 1) ∧
    (1000 < v → parseSize (some (intToStr v)) = 1000) ∧
    (1 ≤ v → v ≤ 1000 → parseSize (some (intToStr v)) = v) ∧
    parseSize (some (strU "-5")) = 1 ∧
    parseSize (some (strU "9999")) = 1000 := by
  refine ⟨by decide, by decide, by decide, ?_, ?_, ?_, by decide, by decide⟩
  · intro h0 h1; rw [parseSize_intToStr v h0]; omega
  · intro h1; rw [parseSize_intToStr v (by omega)]; omega
  · intro h1 h2; rw [parseSize_intToStr v (by omega)]; omega

/-- C5 witness: the clamping conjuncts applied at −7 and 2025. -/
theorem C5_size_clamping_witness :
    parseSize (some (intToStr (-7))) = 1 ∧
    parseSize (some (intToStr 2025)) = 1000 :=
  ⟨(C5_size_clamping (-7)).2.2.2.1 (by decide) (by decide),
   (C5_size_clamping 2025).2.2.2.2.1 (by decide)⟩

/-- C5 counterexample: `s=0` has integer value 0, which is outside
[1, 1000] from below, yet the parsed size is the default 60, not the
clamp result 1. -/
theorem C5_counterexample :
    jsParseInt10 (some (strU "0")) = some 0 ∧
    parseSize (some (strU "0")) = 60 ∧ (60 : Int) ≠ 1 := by decide

/-- C6: `circle` and `rounded` yield their border-radius styles, and
every other value — absent included — yields the empty string, except
when the value names a property inherited from `Object.prototype`
(`toString`, `valueOf`, `constructor`, ...): `styles[shape]` then finds
that truthy inherited member and `|| ""` does not replace it. -/
theorem C6_shape_resolution (s : List Nat) :
    getShapeStyle (some (strU "circle")) = .str circleStyle ∧
    getShapeStyle (some (strU "rounded")) = .str roundedStyle ∧
    getShapeStyle none = .str [] ∧
    (s ≠ strU "circle" → s ≠ strU "rounded" → s ∉ objectProtoProps →
      getShapeStyle (some s) = .str []) ∧
    (s ∈ objectProtoProps → getShapeStyle (some s) = .protoMember s) := by
  refine ⟨by decide, by decide, by decide, ?_, ?_⟩
  · intro h1 h2 h3
    simp only [getShapeStyle, Option.getD_some, if_neg h1, if_neg h2, if_neg h3]
  · intro hmem
    have h1 : s ≠ strU "circle" := by rintro rfl; revert hmem; decide
    have h2 : s ≠ strU "rounded" := by rintro rfl; revert hmem; decide
    simp only [getShapeStyle, Option.getD_some, if_neg h1, if_neg h2, if_pos hmem]

/-- C6 witness: an unrecognized shape yields the empty style, while a
prototype-inherited name yields the inherited member. -/
theorem C6_shape_resolution_witness :
    getShapeStyle (some (strU "square")) = .str [] ∧
    getShapeStyle (some (strU "valueOf")) = .protoMember (strU "valueOf") :=
  ⟨(C6_shape_resolution (strU "square")).2.2.2.1 (by decide) (by decide) (by decide),
   (C6_shape_resolution (strU "valueOf")).2.2.2.2 (by decide)⟩

/-- C6 counterexample: `shape=toString` is neither `circle` nor
`rounded`, yet `getShapeStyle` returns the inherited
`Object.prototype.toString` member, not the empty string. -/
theorem C6_counterexample :
    getShapeStyle (some (strU "toString")) = .protoMember (strU "toString") ∧
    JsValue.protoMember (strU "toString") ≠ .str [] := by decide

/-- C9: the font size interpolated into the rendered SVG is exactly
`size * 0.9 / max(graphemeCount(text), 1)` (in exact arithmetic; the
concrete instances are also exact in IEEE doubles), and the options
parsed from `/avatar/xn--nxasmq5b?s=80` give a 2-grapheme text with
font size `80 * 0.9 / 2 = 36`. -/
theorem C9_font_size (seg : List Nat → List (List Nat))
    (numToStr : ℚ → List Nat) (jsShow : JsValue → List Nat) (size : Int)
    (text : List Nat) (shapeStyle : JsValue) (color1 color2 : List Nat) :
    (∃ pre post,
      generateSvgAvatar seg numToStr jsShow size text shapeStyle color1 color2 =
        pre ++
          numToStr ((size : ℚ) * ((9 : ℚ) / 10) /
            max (countGraphemes seg text : ℚ) 1) ++ post) ∧
    calculateFontSize jsSpread 80 [26085, 26412] = 36 ∧
    (parseAvatarOptions jsSpread
        ⟨strU "/avatar/xn--nxasmq5b", some (strU "80"), none⟩).map
      (fun o => (o.size, countGraphemes jsSpread o.text,
        calculateFontSize jsSpread (o.size : ℚ) o.text)) = .ok (80, 2, 36) := by
  refine ⟨?_, ?_, ?_⟩
  case refine_2 =>
    have hcount : countGraphemes jsSpread [26085, 26412] = 2 := rfl
    rw [calculateFontSize, hcount]
    norm_num [defaultsFontSizeRatio]
  case refine_3 =>
    have hopts : parseAvatarOptions jsSpread
        ⟨strU "/avatar/xn--nxasmq5b", some (strU "80"), none⟩ =
        .ok ⟨80, [972, 946], none, false⟩ := by rfl
    rw [hopts]
    have hcount : countGraphemes jsSpread [972, 946] = 2 := rfl
    have hfs : calculateFontSize jsSpread (((80 : Int) : ℚ)) [972, 946] = 36 := by
      rw [calculateFontSize, hcount]
      norm_num [defaultsFontSizeRatio]
    simp only [Except.map, hcount, hfs]
  refine ⟨svgTmpl1 ++ jsShow shapeStyle ++ svgTmpl2 ++ intToStr size ++
    svgTmpl3 ++ intToStr size ++ svgTmpl4 ++ intToStr size ++ svgTmpl5 ++
    intToStr size ++ svgTmpl6 ++ color1 ++ svgTmpl7 ++ color2 ++ svgTmpl8 ++
    intToStr size ++ svgTmpl9 ++ intToStr size ++ svgTmpl10,
    svgTmpl11 ++ escapeXml text ++ svgTmpl12, ?_⟩
  simp [generateSvgAvatar, calculateFontSize, defaultsFontSizeRatio,
    List.append_assoc]

theorem jsToLowerUnit_eq_x (a : Nat) :
    jsToLowerUnit a = 0x78 ↔ (a = 0x78 ∨ a = 0x58) := by
  simp only [jsToLowerUnit]; split <;> omega

theorem jsToLowerUnit_eq_n (a : Nat) :
    jsToLowerUnit a = 0x6E ↔ (a = 0x6E ∨ a = 0x4E) := by
  simp only [jsToLowerUnit]; split <;> omega

theorem jsToLowerUnit_eq_dash (a : Nat) :
    jsToLowerUnit a = 0x2D ↔ a = 0x2D := by
  simp only [jsToLowerUnit]; split <;> omega

/-- C3: decoding is attempted exactly on strings whose case-insensitive
prefix is `xn--` (an `x` or `X`, an `n` or `N`, then two literal
dashes); the four marker units are stripped before decoding; a decode
failure falls back to the original string, and a string without the
marker is returned unchanged. -/
theorem C3_decode_if_needed (str : List Nat) :
    (isPunycode str = true ↔
      ∃ a b t, str = a :: b :: 0x2D :: 0x2D :: t ∧
        (a = 0x78 ∨ a = 0x58) ∧ (b = 0x6E ∨ b = 0x4E)) ∧
    (isPunycode str = false → decodePunycodeIfNeeded str = str) ∧
    (∀ e, isPunycode str = true → punycodeDecode (str.drop 4) = .error e →
      decodePunycodeIfNeeded str = str) ∧
    (∀ d, isPunycode str = true → punycodeDecode (str.drop 4) = .ok d →
      decodePunycodeIfNeeded str = d) := by
  refine ⟨⟨?_, ?_⟩, ?_, ?_, ?_⟩
  · intro h
    match str with
    | [] => simp [isPunycode, jsToLower, punyMarker_eq, List.isPrefixOf] at h
    | [a] => simp [isPunycode, jsToLower, punyMarker_eq, List.isPrefixOf] at h
    | [a, b] => simp [isPunycode, jsToLower, punyMarker_eq, List.isPrefixOf] at h
    | [a, b, c] => simp [isPunycode, jsToLower, punyMarker_eq, List.isPrefixOf] at h
    | a :: b :: c :: d :: t =>
      simp only [isPunycode, jsToLower, punyMarker_eq, List.map_cons,
        List.isPrefixOf, Bool.and_eq_true, beq_iff_eq] at h
      obtain ⟨ha, hb, hc, hd, -⟩ := h
      refine ⟨a, b, t, ?_, ?_, ?_⟩
      · rw [(jsToLowerUnit_eq_dash c).mp hc.symm, (jsToLowerUnit_eq_dash d).mp hd.symm]
      · exact (jsToLowerUnit_eq_x a).mp ha.symm
      · exact (jsToLowerUnit_eq_n b).mp hb.symm
  · rintro ⟨a, b, t, rfl, ha, hb⟩
    rcases ha with rfl | rfl <;> rcases hb with rfl | rfl <;>
      simp [isPunycode, jsToLower, punyMarker_eq, List.isPrefixOf, jsToLowerUnit]
  · intro h
    simp [decodePunycodeIfNeeded, h]
  · intro e h hdec
    have h4 : punyMarker.length = 4 := by decide
    simp [decodePunycodeIfNeeded, h, h4, hdec]
  · intro d h hdec
    have h4 : punyMarker.length = 4 := by decide
    simp [decodePunycodeIfNeeded, h, h4, hdec]

/-- C3 witness: an uppercase-marker label decodes, a bad label falls
back to itself, and an unmarked string passes through unchanged. -/
theorem C3_decode_if_needed_witness :
    decodePunycodeIfNeeded (strU "XN--wgv71a") = [26085, 26412] ∧
    decodePunycodeIfNeeded (strU "xn--99999a") = strU "xn--99999a" ∧
    decodePunycodeIfNeeded (strU "hello") = strU "hello" :=
  ⟨(C3_decode_if_needed (strU "XN--wgv71a")).2.2.2 [26085, 26412]
      (by decide) (by decide),
   (C3_decode_if_needed (strU "xn--99999a")).2.2.1 DecodeErr.rangeErr
      (by decide) (by decide),
   (C3_decode_if_needed (strU "hello")).2.1 (by decide)⟩

theorem strU_ampFull : strU "&amp;" = [0x26, 97, 109, 112, 59] := rfl
theorem strU_ltFull : strU "&lt;" = [0x26, 108, 116, 59] := rfl
theorem strU_gtFull : strU "&gt;" = [0x26, 103, 116, 59] := rfl
theorem strU_quotFull : strU "&quot;" = [0x26, 113, 117, 111, 116, 59] := rfl
theorem strU_aposFull : strU "&apos;" = [0x26, 97, 112, 111, 115, 59] := rfl

/-- Appending one escaped character preserves the entity discipline. -/
theorem ampOk_escapeChar (c : Nat) (r : List Nat) (hr : ampOk r = true) :
    ampOk (escapeChar c ++ r) = true := by
  by_cases h1 : c = 0x26
  · subst h1
    simp [escapeChar, strU_ampFull, ampOk, List.isPrefixOf, strU, hr]
  · by_cases h2 : c = 0x3C
    · subst h2
      simp [escapeChar, strU_ltFull, ampOk, List.isPrefixOf, strU, hr]
    · by_cases h3 : c = 0x3E
      · subst h3
        simp [escapeChar, strU_gtFull, ampOk, List.isPrefixOf, strU, hr]
      · by_cases h4 : c = 0x22
        · subst h4
          simp [escapeChar, strU_quotFull, ampOk, List.isPrefixOf, strU, hr]
        · by_cases h5 : c = 0x27
          · subst h5
            simp [escapeChar, strU_aposFull, ampOk, List.isPrefixOf, strU, hr]
          · simp [escapeChar, h1, h2, h3, h4, h5, ampOk, hr]

theorem escapeChar_no_raw (c : Nat) :
    ∀ d ∈ escapeChar c, d ≠ 0x3C ∧ d ≠ 0x3E ∧ d ≠ 0x22 ∧ d ≠ 0x27 := by
  by_cases h1 : c = 0x26
  · subst h1; decide
  · by_cases h2 : c = 0x3C
    · subst h2; decide
    · by_cases h3 : c = 0x3E
      · subst h3; decide
      · by_cases h4 : c = 0x22
        · subst h4; decide
        · by_cases h5 : c = 0x27
          · subst h5; decide
          · intro d hd
            simp only [escapeChar, if_neg h1, if_neg h2, if_neg h3, if_neg h4,
              if_neg h5, List.mem_singleton] at hd
            subst hd
            exact ⟨h2, h3, h4, h5⟩

/-- The escaped form of any string satisfies the no-unescaped-character
predicate. -/
theorem xmlSafe_escapeXml (s : List Nat) : xmlSafe (escapeXml s) = true := by
  induction s with
  | nil => decide
  | cons c t ih =>
    have h : escapeXml (c :: t) = escapeChar c ++ escapeXml t := by
      simp [escapeXml]
    rw [xmlSafe, h] at *
    rw [Bool.and_eq_true] at ih ⊢
    refine ⟨?_, ampOk_escapeChar c _ ih.2⟩
    rw [List.all_append, Bool.and_eq_true]
    refine ⟨?_, ih.1⟩
    rw [List.all_eq_true]
    intro d hd
    have := escapeChar_no_raw c d hd
    simp only [decide_eq_true_eq]
    exact ⟨this.1, this.2.1, this.2.2.1, this.2.2.2⟩

/-- C8: the rendered SVG's text node content is exactly
`escapeXml(text)`, which contains no raw `<`, `>`, `"` or `'` and in
which every `&` begins one of the five XML entities. -/
theorem C8_text_node_escaped (seg : List Nat → List (List Nat))
    (numToStr : ℚ → List Nat) (jsShow : JsValue → List Nat) (size : Int)
    (text : List Nat) (shapeStyle : JsValue) (color1 color2 : List Nat) :
    (∃ pre,
      generateSvgAvatar seg numToStr jsShow size text shapeStyle color1 color2 =
        pre ++ strU "\">" ++ escapeXml text ++
          strU "</text>\n  </g>\n</svg>") ∧
    xmlSafe (escapeXml text) = true := by
  refine ⟨⟨svgTmpl1 ++ jsShow shapeStyle ++ svgTmpl2 ++ intToStr size ++
    svgTmpl3 ++ intToStr size ++ svgTmpl4 ++ intToStr size ++ svgTmpl5 ++
    intToStr size ++ svgTmpl6 ++ color1 ++ svgTmpl7 ++ color2 ++ svgTmpl8 ++
    intToStr size ++ svgTmpl9 ++ intToStr size ++ svgTmpl10 ++
    numToStr (calculateFontSize seg (size : ℚ) text), ?_⟩,
    xmlSafe_escapeXml text⟩
  simp [generateSvgAvatar, svgTmpl11, svgTmpl12, List.append_assoc]

/-! ## The code-point segmentation satisfies the segmentation contract -/

theorem jsSpread_cons_cons (a b : Nat) (l : List Nat) :
    jsSpread (a :: b :: l) =
      if isHighSurrogate a = true ∧ isLowSurrogate b = true then
        [a, b] :: jsSpread l
      else [a] :: jsSpread (b :: l) := rfl

theorem jsSpread_flatten : ∀ s, (jsSpread s).flatten = s := by
  intro s
  induction s using jsSpread.induct with
  | case1 => rfl
  | case2 a => rfl
  | case3 a b rest h ih =>
    rw [jsSpread_cons_cons, if_pos h]
    simp [ih]
  | case4 a b rest h ih =>
    rw [jsSpread_cons_cons, if_neg h]
    simp [ih]

theorem segJoins_jsSpread : SegJoins jsSpread := jsSpread_flatten

/-- Every segment list of a nonempty string starts with a segment whose
first unit is the string's first unit. -/
theorem jsSpread_cons (c : Nat) (l : List Nat) :
    ∃ t segs, jsSpread (c :: l) = (c :: t) :: segs := by
  match l with
  | [] => exact ⟨[], [], rfl⟩
  | b :: rest =>
    by_cases h : isHighSurrogate c = true ∧ isLowSurrogate b = true
    · exact ⟨[b], jsSpread rest, by rw [jsSpread_cons_cons, if_pos h]⟩
    · exact ⟨[], jsSpread (b :: rest), by rw [jsSpread_cons_cons, if_neg h]⟩

theorem jsSpread_take_flatten :
    ∀ s n, jsSpread (((jsSpread s).take n).flatten) = (jsSpread s).take n := by
  intro s
  induction s using jsSpread.induct with
  | case1 => intro n; simp [jsSpread]
  | case2 a =>
    intro n
    match n with
    | 0 => rfl
    | n + 1 => simp [jsSpread, List.take_succ_cons]
  | case3 a b rest h ih =>
    intro n
    rw [jsSpread_cons_cons, if_pos h]
    match n with
    | 0 => rfl
    | n + 1 =>
      rw [List.take_succ_cons, List.flatten_cons]
      simp only [List.cons_append, List.nil_append]
      rw [jsSpread_cons_cons, if_pos h, ih n]
  | case4 a b rest h ih =>
    intro n
    rw [jsSpread_cons_cons, if_neg h]
    match n with
    | 0 => rfl
    | 1 => simp [jsSpread, List.take_succ_cons]
    | m + 1 + 1 =>
      obtain ⟨t, segs, hbt⟩ := jsSpread_cons b rest
      rw [List.take_succ_cons, List.flatten_cons, hbt, List.take_succ_cons,
        List.flatten_cons]
      simp only [List.singleton_append, List.cons_append, List.nil_append]
      rw [jsSpread_cons_cons, if_neg h]
      have := ih (m + 1)
      rw [hbt, List.take_succ_cons, List.flatten_cons] at this
      simp only [List.cons_append, List.nil_append] at this ⊢
      rw [this]

theorem segStable_jsSpread : SegStable jsSpread := jsSpread_take_flatten

/-- C4: for any boundary-stable segmentation (UAX #29 graphemes and the
code-point fallback both qualify), truncation returns exactly
`min n (graphemeCount s)` whole units — in particular at most `n` — and
its result is a concatenation of whole segments of `s`, so no unit is
split at the boundary. -/
theorem C4_grapheme_truncation (seg : List Nat → List (List Nat))
    (s : List Nat) (n : Nat) (hstable : SegStable seg) :
    countGraphemes seg (getFirstGraphemes seg s n) =
      min n (countGraphemes seg s) ∧
    countGraphemes seg (getFirstGraphemes seg s n) ≤ n ∧
    getFirstGraphemes seg s n = ((seg s).take n).flatten := by
  have h := hstable s n
  refine ⟨?_, ?_, rfl⟩
  · rw [countGraphemes, getFirstGraphemes, h, List.length_take, countGraphemes]
  · rw [countGraphemes, getFirstGraphemes, h, List.length_take]
    omega

/-- C4 witness: truncating a 4-grapheme string (with an astral emoji) to
2 graphemes yields exactly 2. -/
theorem C4_grapheme_truncation_witness :
    countGraphemes jsSpread
      (getFirstGraphemes jsSpread [97, 55357, 56832, 98, 99] 2) = 2 ∧
    countGraphemes jsSpread (getFirstGraphemes jsSpread [97] 5) ≤ 5 :=
  ⟨by
    rw [(C4_grapheme_truncation jsSpread [97, 55357, 56832, 98, 99] 2
      segStable_jsSpread).1]
    decide,
   (C4_grapheme_truncation jsSpread [97] 5 segStable_jsSpread).2.1⟩

/-- C10: for any reassembling segmentation, the truncated string is a
prefix of the original, and when the limit is at least the grapheme
count the original string is returned unchanged. -/
theorem C10_prefix_identity (seg : List Nat → List (List Nat))
    (s : List Nat) (n : Nat) (hjoin : SegJoins seg) :
    (∃ t, getFirstGraphemes seg s n ++ t = s) ∧
    (countGraphemes seg s ≤ n → getFirstGraphemes seg s n = s) := by
  constructor
  · refine ⟨((seg s).drop n).flatten, ?_⟩
    rw [getFirstGraphemes, ← List.flatten_append, List.take_append_drop, hjoin s]
  · intro h
    rw [countGraphemes] at h
    rw [getFirstGraphemes, List.take_of_length_le h, hjoin s]

/-- C10 witness: a short string passes through unchanged; truncation of
a longer one is one of its prefixes. -/
theorem C10_prefix_identity_witness :
    getFirstGraphemes jsSpread (strU "ab") 2 = strU "ab" ∧
    ∃ t, getFirstGraphemes jsSpread (strU "abc") 1 ++ t = strU "abc" :=
  ⟨(C10_prefix_identity jsSpread (strU "ab") 2 segJoins_jsSpread).2 (by decide),
   (C10_prefix_identity jsSpread (strU "abc") 1 segJoins_jsSpread).1⟩

/-- C7: with the avatar text validly percent-encoded (or the path not
under `/avatar/` at all, so that `decodeURIComponent` is never called),
`handleRequest` returns an SVG response for every path, every query
mapping, every segmenter and every color pair: decode failures and
malformed parameters all degrade to defaults.  The hypothesis is
necessary: `decodeURIComponent` is not wrapped in try/catch, so a
malformed percent escape in the path raises an uncaught `URIError`
(see the counterexample). -/
theorem C7_no_visible_failure (seg : List Nat → List (List Nat))
    (numToStr : ℚ → List Nat) (jsShow : JsValue → List Nat) (url : UrlModel)
    (color1 color2 : List Nat)
    (hdec : BASEPATH.isPrefixOf url.pathname = false ∨
      ∃ d, decodeURIComponent (url.pathname.drop BASEPATH.length) = .ok d) :
    ∃ r, handleRequest seg numToStr jsShow url color1 color2 = .ok r ∧
      r.contentType = strU "image/svg+xml; charset=utf-8" := by
  have hparse : ∃ opts, parseAvatarOptions seg url = .ok opts := by
    simp only [parseAvatarOptions, bind, Except.bind, pure, Except.pure]
    split
    · next hp =>
      rcases hdec with h | ⟨d, hd⟩
      · rw [hp] at h; cases h
      · rw [hd]; exact ⟨_, rfl⟩
    · exact ⟨_, rfl⟩
  obtain ⟨opts, hopts⟩ := hparse
  refine ⟨createSvgResponse
    (generateSvgAvatar seg numToStr jsShow opts.size opts.text
      (getShapeStyle opts.shape) color1 color2) (!opts.isRootPath), ?_, rfl⟩
  simp only [handleRequest, bind, Except.bind, hopts, pure, Except.pure]

/-- C7 witness: a plain request renders an SVG response. -/
theorem C7_no_visible_failure_witness :
    ∃ r, handleRequest jsSpread (fun _ => []) (fun _ => [])
        ⟨strU "/avatar/JD", none, none⟩ (strU "#aabbcc") (strU "#001122") =
          .ok r ∧
      r.contentType = strU "image/svg+xml; charset=utf-8" :=
  C7_no_visible_failure jsSpread (fun _ => []) (fun _ => [])
    ⟨strU "/avatar/JD", none, none⟩ (strU "#aabbcc") (strU "#001122")
    (Or.inr ⟨strU "JD", by rfl⟩)

/-- C7 counterexample: the path `/avatar/%` carries a malformed percent
escape; `decodeURIComponent` throws `URIError`, which no caller
catches, so `handleRequest` fails instead of returning an SVG. -/
theorem C7_counterexample :
    handleRequest jsSpread (fun _ => []) (fun _ => [])
      ⟨strU "/avatar/%", none, none⟩ [] [] = .error () := by rfl

/-! ## Error analysis of the decoder (claim C2) -/

theorem punyVarint_ok_shape :
    ∀ (l : List Nat) (bias k w i i' : Nat) (rest' : List Nat),
      punyVarint l bias k w i = .ok (i', rest') →
      ∃ pre, l = pre ++ rest' ∧ 0 < pre.length ∧
        ∀ c ∈ pre, (punycodeDigitToBasic c).isSome = true := by
  intro l
  induction l with
  | nil => intro bias k w i i' rest' h; simp [punyVarint] at h
  | cons c t ih =>
    intro bias k w i i' rest' h
    rw [punyVarint] at h
    cases hd : punycodeDigitToBasic c with
    | none => rw [hd] at h; cases h
    | some digit =>
      rw [hd] at h
      simp only at h
      split at h
      · cases h
        exact ⟨[c], rfl, by simp, by simp [hd]⟩
      · obtain ⟨pre, hpre, hlen, hval⟩ := ih _ _ _ _ _ _ h
        refine ⟨c :: pre, by simp [hpre], by simp, ?_⟩
        intro d hdm
        rcases List.mem_cons.mp hdm with rfl | hm
        · simp [hd]
        · exact hval d hm

theorem punyVarint_error_cases :
    ∀ (l : List Nat) (bias k w i : Nat) (e : DecodeErr),
      punyVarint l bias k w i = .error e →
      (e = .invalidDigit ∧ ∃ c ∈ l, punycodeDigitToBasic c = none) ∨
      (e = .truncated ∧ ∀ c ∈ l, (punycodeDigitToBasic c).isSome = true) := by
  intro l
  induction l with
  | nil =>
    intro bias k w i e h
    rw [punyVarint] at h
    cases h
    exact Or.inr ⟨rfl, by simp⟩
  | cons c t ih =>
    intro bias k w i e h
    rw [punyVarint] at h
    cases hd : punycodeDigitToBasic c with
    | none =>
      rw [hd] at h
      cases h
      exact Or.inl ⟨rfl, c, List.mem_cons_self c t, hd⟩
    | some digit =>
      rw [hd] at h
      simp only at h
      split at h
      · cases h
      · rcases ih _ _ _ _ _ h with ⟨he, d, hdm, hdn⟩ | ⟨he, hall⟩
        · exact Or.inl ⟨he, d, List.mem_cons_of_mem c hdm, hdn⟩
        · refine Or.inr ⟨he, ?_⟩
          intro d hdm
          rcases List.mem_cons.mp hdm with rfl | hm
          · simp [hd]
          · exact hall d hm

/-- The decoding loop and its scan variant agree: scan errors are decode
errors (unless a range error preempts them), a completed scan with
in-range points is a successful decode, an out-of-range point is a
range error, and a successful decode yields a completed in-range scan. -/
theorem mainScanCorr :
    ∀ (fuel : Nat) (rest : List Nat) (output : List (List Nat)) (i n bias : Nat),
      (∀ e, punyScanMain fuel rest output i n bias = .error e →
        punyMain fuel rest output i n bias = .error e ∨
        punyMain fuel rest output i n bias = .error .rangeErr) ∧
      (∀ out pts, punyScanMain fuel rest output i n bias = .ok (out, pts) →
        ((∀ p ∈ pts, p ≤ 0x10FFFF) →
          punyMain fuel rest output i n bias = .ok out) ∧
        ((∃ p ∈ pts, 0x10FFFF < p) →
          punyMain fuel rest output i n bias = .error .rangeErr)) ∧
      (∀ out, punyMain fuel rest output i n bias = .ok out →
        ∃ pts, punyScanMain fuel rest output i n bias = .ok (out, pts) ∧
          ∀ p ∈ pts, p ≤ 0x10FFFF) := by
  intro fuel
  induction fuel with
  | zero =>
    intro rest output i n bias
    match rest with
    | [] =>
      refine ⟨?_, ?_, ?_⟩
      · intro e h; simp [punyScanMain] at h
      · intro out pts h
        simp only [punyScanMain, Except.ok.injEq, Prod.mk.injEq] at h
        obtain ⟨rfl, rfl⟩ := h
        exact ⟨fun _ => rfl, fun ⟨p, hp, _⟩ => absurd hp (by simp)⟩
      · intro out h
        simp only [punyMain, Except.ok.injEq] at h
        exact ⟨[], by rw [h]; rfl, by simp⟩
    | c :: t =>
      refine ⟨?_, ?_, ?_⟩
      · intro e h
        simp only [punyScanMain, Except.error.injEq] at h
        subst h
        exact Or.inl rfl
      · intro out pts h; simp [punyScanMain] at h
      · intro out h; simp [punyMain] at h
  | succ f ih =>
    intro rest output i n bias
    match rest with
    | [] =>
      refine ⟨?_, ?_, ?_⟩
      · intro e h; simp [punyScanMain] at h
      · intro out pts h
        simp only [punyScanMain, Except.ok.injEq, Prod.mk.injEq] at h
        obtain ⟨rfl, rfl⟩ := h
        exact ⟨fun _ => rfl, fun ⟨p, hp, _⟩ => absurd hp (by simp)⟩
      · intro out h
        simp only [punyMain, Except.ok.injEq] at h
        exact ⟨[], by rw [h]; rfl, by simp⟩
    | c :: t =>
      cases hv : punyVarint (c :: t) bias punyBase 1 i with
      | error e0 =>
        refine ⟨?_, ?_, ?_⟩
        · intro e h
          simp only [punyScanMain, hv, Except.error.injEq] at h
          subst h
          exact Or.inl (by simp [punyMain, hv])
        · intro out pts h; simp [punyScanMain, hv] at h
        · intro out h; simp [punyMain, hv] at h
      | ok v =>
        obtain ⟨i', rest'⟩ := v
        by_cases hrange : n + i' / (output.length + 1) > 0x10FFFF
        · refine ⟨?_, ?_, ?_⟩
          · intro e h
            right
            simp only [punyMain, hv, if_pos hrange]
          · intro out pts h
            simp only [punyScanMain, hv] at h
            constructor
            · intro hall
              cases hsc : punyScanMain f rest'
                  (output.insertIdx (i' % (output.length + 1))
                    (utf16Encode (n + i' / (output.length + 1))))
                  (i' % (output.length + 1) + 1)
                  (n + i' / (output.length + 1))
                  (punycodAdapt (i' - i) (output.length + 1) (i == 0)) with
              | error e1 => rw [hsc] at h; cases h
              | ok op =>
                rw [hsc] at h
                obtain ⟨op1, op2⟩ := op
                simp only [Except.ok.injEq, Prod.mk.injEq] at h
                obtain ⟨rfl, rfl⟩ := h
                have := hall _ (List.mem_cons_self _ _)
                omega
            · intro _
              simp only [punyMain, hv, if_pos hrange]
          · intro out h
            simp only [punyMain, hv, if_pos hrange] at h
            exact Except.noConfusion h
        · obtain ⟨ih1, ih2, ih3⟩ := ih rest'
            (output.insertIdx (i' % (output.length + 1))
              (utf16Encode (n + i' / (output.length + 1))))
            (i' % (output.length + 1) + 1)
            (n + i' / (output.length + 1))
            (punycodAdapt (i' - i) (output.length + 1) (i == 0))
          refine ⟨?_, ?_, ?_⟩
          · intro e h
            simp only [punyScanMain, hv] at h
            cases hsc : punyScanMain f rest'
                (output.insertIdx (i' % (output.length + 1))
                  (utf16Encode (n + i' / (output.length + 1))))
                (i' % (output.length + 1) + 1)
                (n + i' / (output.length + 1))
                (punycodAdapt (i' - i) (output.length + 1) (i == 0)) with
            | error e1 =>
              rw [hsc] at h
              simp only [Except.error.injEq] at h
              subst h
              rcases ih1 _ hsc with h2 | h2 <;>
                [left; right] <;>
                simpa [punyMain, hv, if_neg hrange] using h2
            | ok op => rw [hsc] at h; obtain ⟨op1, op2⟩ := op; cases h
          · intro out pts h
            simp only [punyScanMain, hv] at h
            cases hsc : punyScanMain f rest'
                (output.insertIdx (i' % (output.length + 1))
                  (utf16Encode (n + i' / (output.length + 1))))
                (i' % (output.length + 1) + 1)
                (n + i' / (output.length + 1))
                (punycodAdapt (i' - i) (output.length + 1) (i == 0)) with
            | error e1 => rw [hsc] at h; cases h
            | ok op =>
              rw [hsc] at h
              obtain ⟨op1, op2⟩ := op
              simp only [Except.ok.injEq, Prod.mk.injEq] at h
              obtain ⟨rfl, rfl⟩ := h
              obtain ⟨hc1, hc2⟩ := ih2 _ _ hsc
              constructor
              · intro hall
                have hmain := hc1 (fun p hp =>
                  hall p (List.mem_cons_of_mem _ hp))
                simpa [punyMain, hv, if_neg hrange] using hmain
              · rintro ⟨p, hp, hpgt⟩
                rcases List.mem_cons.mp hp with rfl | hp'
                · omega
                · have hmain := hc2 ⟨p, hp', hpgt⟩
                  simpa [punyMain, hv, if_neg hrange] using hmain
          · intro out h
            have h' : punyMain f rest'
                (output.insertIdx (i' % (output.length + 1))
                  (utf16Encode (n + i' / (output.length + 1))))
                (i' % (output.length + 1) + 1)
                (n + i' / (output.length + 1))
                (punycodAdapt (i' - i) (output.length + 1) (i == 0)) = .ok out := by
              simpa [punyMain, hv, if_neg hrange] using h
            obtain ⟨pts, hsc, hall⟩ := ih3 _ h'
            refine ⟨(n + i' / (output.length + 1)) :: pts, ?_, ?_⟩
            · simp only [punyScanMain, hv, hsc]
            · intro p hp
              rcases List.mem_cons.mp hp with rfl | hp'
              · omega
              · exact hall p hp'

/-- A successful run of the decoding loop consumed every remaining unit
as a valid base-36 digit. -/
theorem punyMain_ok_valid :
    ∀ (fuel : Nat) (rest : List Nat) (output : List (List Nat)) (i n bias : Nat)
      (out : List (List Nat)),
      punyMain fuel rest output i n bias = .ok out →
      ∀ c ∈ rest, (punycodeDigitToBasic c).isSome = true := by
  intro fuel
  induction fuel with
  | zero =>
    intro rest output i n bias out h
    match rest with
    | [] => simp
    | c :: t => simp [punyMain] at h
  | succ f ih =>
    intro rest output i n bias out h
    match rest with
    | [] => simp
    | c :: t =>
      cases hv : punyVarint (c :: t) bias punyBase 1 i with
      | error e0 => simp [punyMain, hv] at h
      | ok v =>
        obtain ⟨i', rest'⟩ := v
        by_cases hrange : n + i' / (output.length + 1) > 0x10FFFF
        · simp [punyMain, hv, if_pos hrange] at h
        · have h' : punyMain f rest'
              (output.insertIdx (i' % (output.length + 1))
                (utf16Encode (n + i' / (output.length + 1))))
              (i' % (output.length + 1) + 1) (n + i' / (output.length + 1))
              (punycodAdapt (i' - i) (output.length + 1) (i == 0)) = .ok out := by
            simpa [punyMain, hv, if_neg hrange] using h
          obtain ⟨pre, hpre, -, hval⟩ := punyVarint_ok_shape _ _ _ _ _ _ _ hv
          intro d hd
          rw [hpre] at hd
          rcases List.mem_append.mp hd with hm | hm
          · exact hval d hm
          · exact ih _ _ _ _ _ _ h' d hm

/-- The scanning loop only raises the decoder's own truncation and
invalid-digit errors, and an invalid-digit error exhibits an invalid
unit in the remaining input. -/
theorem scanMain_error_classify :
    ∀ (fuel : Nat) (rest : List Nat) (output : List (List Nat)) (i n bias : Nat)
      (e : DecodeErr),
      punyScanMain fuel rest output i n bias = .error e →
      e = .truncated ∨
      (e = .invalidDigit ∧ ∃ c ∈ rest, punycodeDigitToBasic c = none) := by
  intro fuel
  induction fuel with
  | zero =>
    intro rest output i n bias e h
    match rest with
    | [] => simp [punyScanMain] at h
    | c :: t =>
      simp only [punyScanMain, Except.error.injEq] at h
      exact Or.inl h.symm
  | succ f ih =>
    intro rest output i n bias e h
    match rest with
    | [] => simp [punyScanMain] at h
    | c :: t =>
      cases hv : punyVarint (c :: t) bias punyBase 1 i with
      | error e0 =>
        simp only [punyScanMain, hv, Except.error.injEq] at h
        subst h
        rcases punyVarint_error_cases _ _ _ _ _ _ hv with ⟨he, hex⟩ | ⟨he, -⟩
        · exact Or.inr ⟨he, hex⟩
        · exact Or.inl he
      | ok v =>
        obtain ⟨i', rest'⟩ := v
        simp only [punyScanMain, hv] at h
        cases hsc : punyScanMain f rest'
            (output.insertIdx (i' % (output.length + 1))
              (utf16Encode (n + i' / (output.length + 1))))
            (i' % (output.length + 1) + 1) (n + i' / (output.length + 1))
            (punycodAdapt (i' - i) (output.length + 1) (i == 0)) with
        | error e1 =>
          rw [hsc] at h
          simp only [Except.error.injEq] at h
          subst h
          rcases ih _ _ _ _ _ _ hsc with he | ⟨he, d, hdm, hdn⟩
          · exact Or.inl he
          · obtain ⟨pre, hpre, -, -⟩ := punyVarint_ok_shape _ _ _ _ _ _ _ hv
            exact Or.inr ⟨he, d, by rw [hpre]; exact List.mem_append_right _ hdm, hdn⟩
        | ok op => rw [hsc] at h; obtain ⟨o1, o2⟩ := op; cases h

/-- `checkBasic` either rejects a non-ASCII unit or copies every unit
into its own one-character string. -/
theorem checkBasic_cases :
    ∀ l : List Nat,
      (checkBasic l = .error .nonAsciiBasic ∧ ∃ c ∈ l, 0x80 ≤ c) ∨
      (checkBasic l = .ok (l.map (fun c => [c])) ∧ ∀ c ∈ l, c < 0x80) := by
  intro l
  induction l with
  | nil => exact Or.inr ⟨rfl, by simp⟩
  | cons c t ih =>
    by_cases hc : 0x80 ≤ c
    · exact Or.inl ⟨by simp [checkBasic, hc], c, List.mem_cons_self c t, hc⟩
    · rcases ih with ⟨herr, d, hdm, hdge⟩ | ⟨hok, hall⟩
      · exact Or.inl ⟨by simp [checkBasic, hc, herr, Except.map], d,
          List.mem_cons_of_mem c hdm, hdge⟩
      · refine Or.inr ⟨by simp [checkBasic, hc, hok, Except.map], ?_⟩
        intro d hdm
        rcases List.mem_cons.mp hdm with rfl | hm
        · omega
        · exact hall d hm

/-- C2 (amended): `punycodeDecode` fails exactly when the label has a
non-ASCII unit in its basic portion, an invalid base-36 digit in the
encoded suffix, truncated input (the scan ends mid-integer), or a
computed insertion code point above `0x10FFFF` (the `fromCodePoint`
range error); on every other input it returns a string. -/
theorem C2_decode_failure_conditions (input : List Nat) :
    decodeSucceeds input = false ↔
      (hasNonAsciiBasic input = true ∨ hasInvalidSuffixChar input = true ∨
        scanTruncated input = true ∨ scanRangeViolation input = true) := by
  rcases checkBasic_cases (input.take (punyBasicIdx input)) with
    ⟨herr, c, hcm, hcge⟩ | ⟨hok, hall⟩
  · have hA : hasNonAsciiBasic input = true := by
      simp only [hasNonAsciiBasic, List.any_eq_true, decide_eq_true_eq]
      exact ⟨c, hcm, hcge⟩
    have hdec : decodeSucceeds input = false := by
      simp [decodeSucceeds, punycodeDecode, bind, Except.bind, herr]
    simp [hdec, hA]
  · have hA : hasNonAsciiBasic input = false := by
      simp only [hasNonAsciiBasic, List.any_eq_false, decide_eq_true_eq]
      intro c hcm
      have := hall c hcm
      omega
    have hdec_eq : punycodeDecode input =
        (punyMain (punySuffix input).length (punySuffix input)
          (List.map (fun c => [c]) (input.take (punyBasicIdx input)))
          0 punyInitialN punyInitialBias).map List.flatten := by
      simp only [punycodeDecode, punySuffix, bind, Except.bind, pure,
        Except.pure, hok]
      cases punyMain (input.drop
          (if punyBasicIdx input > 0 then punyBasicIdx input + 1 else 0)).length
          (input.drop (if punyBasicIdx input > 0 then punyBasicIdx input + 1 else 0))
          (List.map (fun c => [c]) (input.take (punyBasicIdx input)))
          0 punyInitialN punyInitialBias with
      | error e => rfl
      | ok out => rfl
    have hscan_eq : ∀ r, punyScanMain (punySuffix input).length (punySuffix input)
          (List.map (fun c => [c]) (input.take (punyBasicIdx input)))
          0 punyInitialN punyInitialBias = r →
        punyScan input = r.map Prod.snd := by
      intro r hr
      simp only [punyScan, punySuffix, bind, Except.bind, pure, Except.pure, hok]
      rw [show (input.drop
          (if punyBasicIdx input > 0 then punyBasicIdx input + 1 else 0)) =
          punySuffix input from rfl, hr]
      cases r with
      | error e => rfl
      | ok op => rfl
    obtain ⟨corr1, corr2, corr3⟩ := mainScanCorr (punySuffix input).length
      (punySuffix input)
      (List.map (fun c => [c]) (input.take (punyBasicIdx input)))
      0 punyInitialN punyInitialBias
    cases hsc : punyScanMain (punySuffix input).length (punySuffix input)
        (List.map (fun c => [c]) (input.take (punyBasicIdx input)))
        0 punyInitialN punyInitialBias with
    | error e =>
      have hps : punyScan input = .error e := hscan_eq _ hsc
      have hdec : decodeSucceeds input = false := by
        rcases corr1 e hsc with hm | hm <;>
          (unfold decodeSucceeds; rw [hdec_eq, hm]; rfl)
      rcases scanMain_error_classify _ _ _ _ _ _ _ hsc with he | ⟨he, d, hdm, hdn⟩
      · subst he
        have hC : scanTruncated input = true := by
          simp [scanTruncated, hps]
        simp [hdec, hC]
      · subst he
        have hB : hasInvalidSuffixChar input = true := by
          simp only [hasInvalidSuffixChar, List.any_eq_true, decide_eq_true_eq]
          exact ⟨d, hdm, by simp [hdn]⟩
        simp [hdec, hB]
    | ok op =>
      obtain ⟨out, pts⟩ := op
      have hps : punyScan input = .ok pts := hscan_eq _ hsc
      have hC : scanTruncated input = false := by simp [scanTruncated, hps]
      by_cases hr : ∀ p ∈ pts, p ≤ 0x10FFFF
      · have hmain : punyMain (punySuffix input).length (punySuffix input)
            (List.map (fun c => [c]) (input.take (punyBasicIdx input)))
            0 punyInitialN punyInitialBias = .ok out := (corr2 _ _ hsc).1 hr
        have hdec : decodeSucceeds input = true := by
          unfold decodeSucceeds
          rw [hdec_eq, hmain]
          rfl
        have hB : hasInvalidSuffixChar input = false := by
          simp only [hasInvalidSuffixChar, List.any_eq_false, decide_eq_true_eq]
          intro d hdm hdn
          have hs := punyMain_ok_valid _ _ _ _ _ _ _ hmain d hdm
          rw [Option.isNone_iff_eq_none] at hdn
          rw [hdn] at hs
          simp at hs
        have hD : scanRangeViolation input = false := by
          simp only [scanRangeViolation, hps, List.any_eq_false,
            decide_eq_true_eq]
          intro p hp
          have := hr p hp
          omega
        simp [hdec, hA, hB, hC, hD]
      · push_neg at hr
        obtain ⟨p, hp, hpgt⟩ := hr
        have hmain := (corr2 _ _ hsc).2 ⟨p, hp, hpgt⟩
        have hdec : decodeSucceeds input = false := by
          unfold decodeSucceeds
          rw [hdec_eq, hmain]
          rfl
        have hD : scanRangeViolation input = true := by
          simp only [scanRangeViolation, hps, List.any_eq_true,
            decide_eq_true_eq]
          exact ⟨p, hp, hpgt⟩
        simp [hdec, hD]

/-- C2 counterexample: `"99999a"` has an all-digits suffix, an empty
basic portion and a completed scan (so none of the claim's three
failure conditions holds), yet decoding fails — the computed code point
4760513 exceeds `0x10FFFF` and `String.fromCodePoint` throws a
`RangeError`. -/
theorem C2_counterexample :
    punycodeDecode (strU "99999a") = .error .rangeErr ∧
    hasNonAsciiBasic (strU "99999a") = false ∧
    hasInvalidSuffixChar (strU "99999a") = false ∧
    scanTruncated (strU "99999a") = false ∧
    punyScan (strU "99999a") = .ok [4760513] := by
  refine ⟨by rfl, by rfl, by rfl, by rfl, by rfl⟩

/-! ## Round-trip of the reference encoder (claim C1) -/

theorem punyDigit_round : ∀ d < 36, punycodeDigitToBasic (punyDigitChar d) = some d := by
  decide

theorem punyThreshold_bounds (k bias : Nat) :
    1 ≤ punyThreshold k bias ∧ punyThreshold k bias ≤ 26 := by
  simp only [punyThreshold, punyTMin, punyTMax]
  split
  · omega
  · split <;> omega

theorem punyDigitChar_lt (d : Nat) (h : d < 36) : punyDigitChar d < 0x80 := by
  simp only [punyDigitChar]
  split <;> omega

theorem punyDigitChar_ne_delim (d : Nat) (h : d < 36) : punyDigitChar d ≠ 0x2D := by
  simp only [punyDigitChar]
  split <;> omega

theorem encVarint_ne_nil (fuel bias k q : Nat) (h : 0 < fuel) :
    encVarint fuel bias k q ≠ [] := by
  match fuel with
  | f + 1 =>
    rw [encVarint]
    split <;> simp

theorem encVarint_digits :
    ∀ (fuel bias k q : Nat), ∀ c ∈ encVarint fuel bias k q,
      ∃ d, d < 36 ∧ c = punyDigitChar d := by
  intro fuel
  induction fuel with
  | zero => intro bias k q c hc; simp [encVarint] at hc
  | succ f ih =>
    intro bias k q c hc
    rw [encVarint] at hc
    split at hc
    · next hq =>
      simp only [List.mem_singleton] at hc
      have := punyThreshold_bounds k bias
      exact ⟨q, by omega, hc⟩
    · next hq =>
      rcases List.mem_cons.mp hc with rfl | hm
      · have hb := punyThreshold_bounds k bias
        refine ⟨punyThreshold k bias +
          (q - punyThreshold k bias) % (punyBase - punyThreshold k bias), ?_, rfl⟩
        have : (q - punyThreshold k bias) % (punyBase - punyThreshold k bias) <
            punyBase - punyThreshold k bias :=
          Nat.mod_lt _ (by simp only [punyBase]; omega)
        simp only [punyBase] at *
        omega
      · exact ih _ _ _ c hm

/-- A variable-length integer encoded with the bias the decoder holds is
decoded back to its value, consuming exactly its digits. -/
theorem varint_round :
    ∀ (fuel q bias k w i : Nat) (rest : List Nat), q < fuel →
      punyVarint (encVarint fuel bias k q ++ rest) bias k w i =
        .ok (i + q * w, rest) := by
  intro fuel
  induction fuel with
  | zero => intro q bias k w i rest h; omega
  | succ f ih =>
    intro q bias k w i rest h
    rw [encVarint]
    have hb := punyThreshold_bounds k bias
    split
    · next hq =>
      rw [List.singleton_append, punyVarint,
        punyDigit_round q (by omega)]
      simp only [if_pos hq]
    · next hq =>
      rw [List.cons_append, punyVarint]
      set t := punyThreshold k bias with ht
      have hd36 : t + (q - t) % (punyBase - t) < 36 := by
        have : (q - t) % (punyBase - t) < punyBase - t :=
          Nat.mod_lt _ (by simp only [punyBase]; omega)
        simp only [punyBase] at *
        omega
      rw [punyDigit_round _ hd36]
      simp only
      rw [if_neg (by omega)]
      have hql : (q - t) / (punyBase - t) < f := by
        have h1 : (q - t) / (punyBase - t) ≤ q - t :=
          Nat.div_le_self _ _
        simp only [punyBase] at *
        omega
      rw [ih _ bias (k + punyBase) (w * (punyBase - t))
        (i + (t + (q - t) % (punyBase - t)) * w) rest hql]
      congr 2
      have hmoddiv : (q - t) % (punyBase - t) + (punyBase - t) * ((q - t) / (punyBase - t)) = q - t :=
        Nat.mod_add_div _ _
      have hq' : t + (q - t) = q := by omega
      ring_nf
      nlinarith [hmoddiv, hq']

theorem punyVarint_ok_length {l : List Nat} {bias k w i i' : Nat}
    {rest' : List Nat} (h : punyVarint l bias k w i = .ok (i', rest')) :
    rest'.length < l.length := by
  obtain ⟨pre, hpre, hlen, -⟩ := punyVarint_ok_shape _ _ _ _ _ _ _ h
  rw [hpre, List.length_append]
  omega

theorem punyMain_nil (fuel : Nat) (output : List (List Nat)) (i n bias : Nat) :
    punyMain fuel [] output i n bias = .ok output := by
  match fuel with
  | 0 => rfl
  | f + 1 => rfl

/-- The decoding loop is insensitive to its fuel as long as the fuel
covers the remaining input. -/
theorem punyMain_fuel_irrel :
    ∀ (fuel fuel' : Nat) (rest : List Nat) (output : List (List Nat))
      (i n bias : Nat), rest.length ≤ fuel → rest.length ≤ fuel' →
      punyMain fuel rest output i n bias = punyMain fuel' rest output i n bias := by
  intro fuel
  induction fuel with
  | zero =>
    intro fuel' rest output i n bias h h'
    match rest with
    | [] => rw [punyMain_nil, punyMain_nil]
    | c :: t => simp at h
  | succ f ih =>
    intro fuel' rest output i n bias h h'
    match rest with
    | [] => rw [punyMain_nil, punyMain_nil]
    | c :: t =>
      match fuel' with
      | 0 => simp at h'
      | f' + 1 =>
        cases hv : punyVarint (c :: t) bias punyBase 1 i with
        | error e => rw [punyMain, punyMain, hv]
        | ok v =>
          obtain ⟨i', rest'⟩ := v
          have hlt : rest'.length < (c :: t).length := punyVarint_ok_length hv
          simp only [List.length_cons] at hlt h h'
          rw [punyMain, punyMain, hv]
          simp only
          split
          · rfl
          · exact ih f' rest' _ _ _ _ (by omega) (by omega)

theorem insertIdx_append_length :
    ∀ (A : List (List Nat)) (B : List (List Nat)) (x : List Nat),
      (A ++ B).insertIdx A.length x = A ++ x :: B := by
  intro A
  induction A with
  | nil => intro B x; rfl
  | cons a t ih =>
    intro B x
    simp only [List.cons_append, List.length_cons, List.insertIdx_succ_cons]
    rw [ih]

theorem minAbove_none :
    ∀ (l : List Nat) (n : Nat), minAbove n l = none → ∀ c ∈ l, c < n := by
  intro l
  induction l with
  | nil => intro n h c hc; simp at hc
  | cons c t ih =>
    intro n h d hd
    rw [minAbove] at h
    cases hm : minAbove n t with
    | none =>
      simp only [hm] at h
      by_cases hc : n ≤ c
      · rw [if_pos hc] at h; cases h
      · rcases List.mem_cons.mp hd with rfl | hdm
        · omega
        · exact ih n hm d hdm
    | some z =>
      simp only [hm] at h
      by_cases hc : n ≤ c
      · rw [if_pos hc] at h; cases h
      · rw [if_neg hc] at h; cases h

theorem minAbove_isSome (l : List Nat) (n : Nat) (h : ∃ c ∈ l, n ≤ c) :
    ∃ m, minAbove n l = some m := by
  cases hm : minAbove n l with
  | none =>
    obtain ⟨c, hc, hnc⟩ := h
    have := minAbove_none l n hm c hc
    omega
  | some m => exact ⟨m, rfl⟩

theorem minAbove_spec :
    ∀ (l : List Nat) (n m : Nat), minAbove n l = some m →
      m ∈ l ∧ n ≤ m ∧ ∀ c ∈ l, n ≤ c → m ≤ c := by
  intro l
  induction l with
  | nil => intro n m h; simp [minAbove] at h
  | cons c t ih =>
    intro n m h
    rw [minAbove] at h
    cases hm : minAbove n t with
    | none =>
      simp only [hm] at h
      by_cases hc : n ≤ c
      · rw [if_pos hc] at h
        injection h with h
        subst h
        refine ⟨List.mem_cons_self _ _, hc, ?_⟩
        intro d hd hnd
        rcases List.mem_cons.mp hd with rfl | hdm
        · exact le_refl _
        · have := minAbove_none t n hm d hdm
          omega
      · rw [if_neg hc] at h; cases h
    | some z =>
      simp only [hm] at h
      obtain ⟨hzm, hnz, hzmin⟩ := ih n z hm
      by_cases hc : n ≤ c
      · rw [if_pos hc] at h
        injection h with h
        subst h
        refine ⟨?_, ?_, ?_⟩
        · rcases Nat.le_total c z with hle | hle
          · rw [Nat.min_eq_left hle]; exact List.mem_cons_self _ _
          · rw [Nat.min_eq_right hle]; exact List.mem_cons_of_mem _ hzm
        · exact le_min hc hnz
        · intro d hd hnd
          rcases List.mem_cons.mp hd with rfl | hdm
          · exact Nat.min_le_left _ _
          · exact le_trans (Nat.min_le_right _ _) (hzmin d hdm hnd)
      · rw [if_neg hc] at h
        injection h with h
        subst h
        refine ⟨List.mem_cons_of_mem _ hzm, hnz, ?_⟩
        intro d hd hnd
        rcases List.mem_cons.mp hd with rfl | hdm
        · omega
        · exact hzmin d hdm hnd

theorem countP_lt_of_mem {l : List Nat} {m : Nat} (hm : m ∈ l) :
    l.countP (fun c => decide (c < m)) < l.countP (fun c => decide (c ≤ m)) := by
  induction l with
  | nil => simp at hm
  | cons c t ih =>
    have hmono : t.countP (fun c => decide (c < m)) ≤
        t.countP (fun c => decide (c ≤ m)) :=
      List.countP_mono_left (by intro x hx h; simp only [decide_eq_true_eq] at *; omega)
    rcases List.mem_cons.mp hm with rfl | hmt
    · rw [List.countP_cons, List.countP_cons]
      simp only [decide_eq_true_eq]
      rw [if_neg (by omega), if_pos (by omega)]
      omega
    · have := ih hmt
      rw [List.countP_cons, List.countP_cons]
      have h2 : (if (decide (c < m)) = true then 1 else 0) ≤
          (if (decide (c ≤ m)) = true then 1 else 0) := by
        simp only [decide_eq_true_eq]
        split
        · rw [if_pos (by omega)]
        · split <;> omega
      omega

theorem beq_flag {a b c d : Nat} (h : (a = b) ↔ (c = d)) : (a == b) = (c == d) := by
  by_cases hab : a = b
  · simp [hab, h.mp hab]
  · have hcd : ¬c = d := fun hcd => hab (h.mpr hcd)
    simp [beq_iff_eq, hab, hcd]

/-- One full scan of the input for the current code point `m`: the
digits the encoder's inner loop emits drive the decoding loop from its
state before the scan to its state after all occurrences of `m` are
inserted, preserving the bootstring invariants.  `pre` is the already
scanned prefix of the input, `xs` the remainder. -/
theorem encInner_decode :
    ∀ (xs pre : List Nat) (b m delta h bias i_dec n_dec : Nat)
      (digits : List Nat) (deltaE hE biasE : Nat),
      encInner m b xs delta h bias = (digits, deltaE, hE, biasE) →
      m ≤ 0x10FFFF → 128 ≤ m → n_dec ≤ m → b ≤ h →
      delta + i_dec = (m - n_dec) * (h + 1) +
        pre.countP (fun c => decide (c ≤ m)) →
      h = pre.countP (fun c => decide (c ≤ m)) +
        xs.countP (fun c => decide (c < m)) →
      (i_dec = 0 ↔ h = b) →
      ∀ (rest : List Nat) (fuel : Nat),
        digits.length + rest.length ≤ fuel →
        ∃ iE nE,
          punyMain fuel (digits ++ rest)
            ((pre.filter (fun c => decide (c ≤ m)) ++
              xs.filter (fun c => decide (c < m))).map utf16Encode)
            i_dec n_dec bias =
            punyMain rest.length rest
              (((pre ++ xs).filter (fun c => decide (c ≤ m))).map utf16Encode)
              iE nE biasE ∧
          deltaE + iE = (m - nE) * (hE + 1) +
            (pre ++ xs).countP (fun c => decide (c ≤ m)) ∧
          hE = (pre ++ xs).countP (fun c => decide (c ≤ m)) ∧
          nE ≤ m ∧ b ≤ hE ∧ (iE = 0 ↔ hE = b) := by
  intro xs
  induction xs with
  | nil =>
    intro pre b m delta h bias i_dec n_dec digits deltaE hE biasE henc hm
      hm128 hnd hbh hinv hh hflag rest fuel hfuel
    rw [encInner] at henc
    simp only [Prod.mk.injEq] at henc
    obtain ⟨rfl, rfl, rfl, rfl⟩ := henc
    refine ⟨i_dec, n_dec, ?_, ?_, ?_, hnd, ?_, hflag⟩
    · simp only [List.nil_append, List.filter_nil, List.append_nil,
       List.countP_nil] at *
      exact punyMain_fuel_irrel fuel rest.length rest _ _ _ _ (by omega) le_rfl
    · simpa using hinv
    · simpa using hh
    · exact hbh
  | cons c xs' ih =>
    intro pre b m delta h bias i_dec n_dec digits deltaE hE biasE henc hm
      hm128 hnd hbh hinv hh hflag rest fuel hfuel
    rw [encInner] at henc
    by_cases hlt : c < m
    · rw [if_pos hlt] at henc
      have hcle : c ≤ m := by omega
      have hout : ((pre ++ [c]).filter (fun c => decide (c ≤ m)) ++
            xs'.filter (fun c => decide (c < m))).map utf16Encode =
          ((pre.filter (fun c => decide (c ≤ m)) ++
            (c :: xs').filter (fun c => decide (c < m))).map utf16Encode) := by
        rw [List.filter_append, List.filter_cons_of_pos (by simpa),
          List.filter_cons_of_pos (by simpa)]
        simp [List.append_assoc]
      have hcnt : (pre ++ [c]).countP (fun c => decide (c ≤ m)) =
          pre.countP (fun c => decide (c ≤ m)) + 1 := by
        rw [List.countP_append]
        simp [hcle]
      obtain ⟨iE, nE, heq, hi1, hi2, hi3, hi4, hi5⟩ :=
        ih (pre ++ [c]) b m (delta + 1) h bias i_dec n_dec digits deltaE hE
          biasE henc hm hm128 hnd hbh
          (by rw [hcnt]; omega)
          (by rw [hcnt]; rw [List.countP_cons_of_pos _ _ (by simpa)] at hh; omega)
          hflag rest fuel hfuel
      rw [hout] at heq
      rw [show pre ++ c :: xs' = (pre ++ [c]) ++ xs' by simp] 
      exact ⟨iE, nE, heq, hi1, hi2, hi3, hi4, hi5⟩
    · by_cases heqc : c = m
      · subst heqc
        rw [if_neg hlt, if_pos rfl] at henc
        cases hrec : encInner c b xs' 0 (h + 1)
            (punycodAdapt delta (h + 1) (h == b)) with
        | mk digits' rest4 =>
        obtain ⟨delta', h', bias''⟩ := rest4
        simp only [hrec, Prod.mk.injEq] at henc
        obtain ⟨rfl, rfl, rfl, rfl⟩ := henc
        -- abbreviations
        set pos := pre.countP (fun d => decide (d ≤ c)) with hpos
        have hposle : pos ≤ h := by rw [hh]; omega
        have hhlen : ((pre.filter (fun d => decide (d ≤ c)) ++
            (c :: xs').filter (fun d => decide (d < c))).map utf16Encode).length
            = h := by
          rw [List.length_map, List.length_append, ← List.countP_eq_length_filter,
            ← List.countP_eq_length_filter, hh]
        -- the emitted variable-length integer
        have hvne : encVarint (delta + 1) bias punyBase delta ≠ [] :=
          encVarint_ne_nil _ _ _ _ (by omega)
        obtain ⟨d0, ds, hds⟩ :=
          List.exists_cons_of_ne_nil hvne
        have hvlen : 0 < (encVarint (delta + 1) bias punyBase delta).length :=
          List.length_pos.mpr hvne
        match fuel, hfuel with
        | 0, hfuel => 
          exfalso
          rw [List.length_append] at hfuel
          omega
        | F + 1, hfuel =>
        have hvround : punyVarint
            (encVarint (delta + 1) bias punyBase delta ++ (digits' ++ rest))
            bias punyBase 1 i_dec = .ok (i_dec + delta * 1, digits' ++ rest) :=
          varint_round (delta + 1) delta bias punyBase 1 i_dec _ (by omega)
        rw [show (encVarint (delta + 1) bias punyBase delta ++ digits') ++ rest =
          encVarint (delta + 1) bias punyBase delta ++ (digits' ++ rest) by
            rw [List.append_assoc]]
        rw [hds] at hvround ⊢
        rw [List.cons_append] at hvround ⊢
        rw [punyMain, hvround]
        simp only [mul_one]
        rw [hhlen]
        -- arithmetic of the insertion step
        have hiarith : i_dec + delta = (c - n_dec) * (h + 1) + pos := by omega
        have hdiv : (i_dec + delta) / (h + 1) = c - n_dec := by
          rw [hiarith, Nat.mul_comm, Nat.mul_add_div (by omega),
            Nat.div_eq_of_lt (by omega)]
          omega
        have hmod : (i_dec + delta) % (h + 1) = pos := by
          rw [hiarith, Nat.add_comm, Nat.add_mul_mod_self_right,
            Nat.mod_eq_of_lt (by omega)]
        rw [hdiv, hmod]
        have hn' : n_dec + (c - n_dec) = c := by omega
        rw [hn']
        rw [if_neg (by omega)]
        have hsub : i_dec + delta - i_dec = delta := by omega
        rw [hsub]
        rw [beq_flag hflag]
        -- the insertion lands between the two filtered halves
        have hinsert : (((pre.filter (fun d => decide (d ≤ c)) ++
            (c :: xs').filter (fun d => decide (d < c))).map utf16Encode).insertIdx
              pos (utf16Encode c)) =
            (((pre ++ [c]).filter (fun d => decide (d ≤ c)) ++
              xs'.filter (fun d => decide (d < c))).map utf16Encode) := by
          rw [List.map_append, show pos =
            ((pre.filter (fun d => decide (d ≤ c))).map utf16Encode).length by
              rw [List.length_map, ← List.countP_eq_length_filter]]
          rw [insertIdx_append_length]
          rw [List.filter_append, List.filter_cons_of_neg (by simpa),
            List.filter_cons_of_pos (by simpa)]
          simp [List.append_assoc]
        rw [hinsert]
        -- apply the induction hypothesis after the insertion
        have hfuel' : digits'.length + rest.length ≤ F := by
          rw [List.length_append] at hfuel
          omega
        have hcnt1 : (pre ++ [c]).countP (fun d => decide (d ≤ c)) = pos + 1 := by
          rw [List.countP_append]
          simp
        obtain ⟨iE, nE, heq, hi1, hi2, hi3, hi4, hi5⟩ :=
          ih (pre ++ [c]) b c 0 (h + 1)
            (punycodAdapt delta (h + 1) (h == b)) (pos + 1) c digits' delta' h'
            bias'' hrec hm hm128 le_rfl (by omega)
            (by rw [hcnt1]; simp)
            (by
              rw [hcnt1]
              rw [List.countP_cons_of_neg _ _ (by simpa)] at hh
              omega)
            (by omega) rest F hfuel'
        refine ⟨iE, nE, ?_, ?_, ?_, hi3, ?_, hi5⟩
        · rw [heq]
          rw [show pre ++ c :: xs' = (pre ++ [c]) ++ xs' by simp]
        · rw [show pre ++ c :: xs' = (pre ++ [c]) ++ xs' by simp]
          exact hi1
        · rw [show pre ++ c :: xs' = (pre ++ [c]) ++ xs' by simp]
          exact hi2
        · exact hi4
      · rw [if_neg hlt, if_neg heqc] at henc
        have hgt : m < c := by omega
        have hout : ((pre ++ [c]).filter (fun d => decide (d ≤ m)) ++
              xs'.filter (fun d => decide (d < m))).map utf16Encode =
            ((pre.filter (fun d => decide (d ≤ m)) ++
              (c :: xs').filter (fun d => decide (d < m))).map utf16Encode) := by
          rw [List.filter_append, List.filter_cons_of_neg (by simp; omega),
            List.filter_cons_of_neg (by simp; omega)]
          simp
        have hcnt : (pre ++ [c]).countP (fun d => decide (d ≤ m)) =
            pre.countP (fun d => decide (d ≤ m)) := by
          rw [List.countP_append]
          simp
          omega
        obtain ⟨iE, nE, heq, hi1, hi2, hi3, hi4, hi5⟩ :=
          ih (pre ++ [c]) b m delta h bias i_dec n_dec digits deltaE hE biasE
            henc hm hm128 hnd hbh
            (by rw [hcnt]; omega)
            (by
              rw [hcnt]
              rw [List.countP_cons_of_neg _ _ (by simp; omega)] at hh
              omega)
            hflag rest fuel hfuel
        rw [hout] at heq
        rw [show pre ++ c :: xs' = (pre ++ [c]) ++ xs' by simp]
        exact ⟨iE, nE, heq, hi1, hi2, hi3, hi4, hi5⟩

/-- The encoder's outer loop drives the decoding loop from any
boundary state to the fully decoded string. -/
theorem encMain_decode :
    ∀ (fuelE : Nat) (x : List Nat) (b n delta h bias i_dec n_dec : Nat),
      (∀ c ∈ x, c ≤ 0x10FFFF) →
      128 ≤ n → n_dec ≤ n →
      delta + i_dec = (n - n_dec) * (h + 1) →
      h = x.countP (fun c => decide (c < n)) →
      b ≤ h →
      (i_dec = 0 ↔ h = b) →
      x.length - h < fuelE →
      punyMain (encMain x b fuelE n delta h bias).length
        (encMain x b fuelE n delta h bias)
        ((x.filter (fun c => decide (c < n))).map utf16Encode)
        i_dec n_dec bias = .ok (x.map utf16Encode) := by
  intro fuelE
  induction fuelE with
  | zero =>
    intro x b n delta h bias i_dec n_dec hx h128 hnd hinv hh hbh hflag hfl
    omega
  | succ f ih =>
    intro x b n delta h bias i_dec n_dec hx h128 hnd hinv hh hbh hflag hfl
    by_cases hcase : h < x.length
    · have hex : ∃ c ∈ x, n ≤ c := by
        by_contra hno
        push_neg at hno
        have : x.countP (fun c => decide (c < n)) = x.length :=
          List.countP_eq_length.mpr (by
            intro a ha
            simp only [decide_eq_true_eq]
            exact hno a ha)
        omega
      obtain ⟨m, hm⟩ := minAbove_isSome x n hex
      obtain ⟨hmmem, hnm, hmin⟩ := minAbove_spec x n m hm
      have hcong : ∀ c ∈ x, (decide (c < n)) = (decide (c < m)) := by
        intro c hc
        by_cases h1 : c < n
        · have : c < m := by omega
          simp [h1, this]
        · have h2 : ¬c < m := fun h2 => absurd (hmin c hc (by omega)) (by omega)
          simp [h1, h2]
      have hcntc : x.countP (fun c => decide (c < n)) =
          x.countP (fun c => decide (c < m)) :=
        List.countP_congr (by intro c hc; rw [hcong c hc])
      have hfiltc : x.filter (fun c => decide (c < n)) =
          x.filter (fun c => decide (c < m)) :=
        List.filter_congr (by intro c hc; rw [hcong c hc])
      cases hrec : encInner m b x (delta + (m - n) * (h + 1)) h bias with
      | mk digits rest4 =>
      obtain ⟨delta2, h2, bias2⟩ := rest4
      have hmain_eq : encMain x b (f + 1) n delta h bias =
          digits ++ encMain x b f (m + 1) (delta2 + 1) h2 bias2 := by
        rw [encMain, if_pos hcase, hm]
        simp only [hrec]
      rw [hmain_eq, hfiltc]
      have hcongle : ∀ c ∈ x, (decide (c ≤ m)) = (decide (c < m + 1)) := by
        intro c hc
        by_cases h1 : c ≤ m
        · have : c < m + 1 := by omega
          simp [h1, this]
        · have h2 : ¬c < m + 1 := by omega
          simp [h1, h2]
      obtain ⟨iE, nE, heq, hi1, hi2, hi3, hi4, hi5⟩ :=
        encInner_decode x [] b m (delta + (m - n) * (h + 1)) h bias i_dec n_dec
          digits delta2 h2 bias2 hrec (hx m hmmem) (by omega) (by omega) hbh
          (by
            simp only [List.countP_nil, Nat.add_zero]
            have h1 : (n - n_dec) + (m - n) = m - n_dec := by omega
            have h2 : (n - n_dec) * (h + 1) + (m - n) * (h + 1) =
                (m - n_dec) * (h + 1) := by rw [← Nat.add_mul, h1]
            omega)
          (by
            simp only [List.countP_nil, Nat.zero_add]
            rw [hh, hcntc])
          hflag (encMain x b f (m + 1) (delta2 + 1) h2 bias2)
          (digits ++ encMain x b f (m + 1) (delta2 + 1) h2 bias2).length
          (by rw [List.length_append])
      simp only [List.filter_nil, List.nil_append] at heq
      rw [heq]
      simp only [List.countP_nil, List.nil_append, Nat.zero_add] at hi1 hi2
      have hmeasure : x.length - h2 < f := by
        have hlt : x.countP (fun c => decide (c < m)) <
            x.countP (fun c => decide (c ≤ m)) := countP_lt_of_mem hmmem
        omega
      have hinv2 : (delta2 + 1) + iE = (m + 1 - nE) * (h2 + 1) := by
        have h1 : m - nE + 1 = m + 1 - nE := by omega
        have h3 : (m - nE) * (h2 + 1) + (h2 + 1) = (m + 1 - nE) * (h2 + 1) := by
          rw [← h1, Nat.succ_mul]
        omega
      have hh2 : h2 = x.countP (fun c => decide (c < m + 1)) := by
        rw [hi2]
        exact List.countP_congr (by intro c hc; rw [hcongle c hc])
      have hfilt2 : x.filter (fun c => decide (c ≤ m)) =
          x.filter (fun c => decide (c < m + 1)) :=
        List.filter_congr (by intro c hc; rw [hcongle c hc])
      rw [hfilt2]
      exact ih x b (m + 1) (delta2 + 1) h2 bias2 iE nE hx (by omega) (by omega)
        hinv2 hh2 hi4 hi5 hmeasure
    · have hmain_eq : encMain x b (f + 1) n delta h bias = [] := by
        rw [encMain, if_neg hcase]
      rw [hmain_eq, punyMain_nil]
      have hcnt : x.countP (fun c => decide (c < n)) = x.length := by
        have := List.countP_le_length (l := x) (p := fun c => decide (c < n))
        omega
      have hfilt : x.filter (fun c => decide (c < n)) = x := by
        rw [List.filter_eq_self]
        intro a ha
        exact (List.countP_eq_length.mp hcnt) a ha
      rw [hfilt]

theorem encInner_digits :
    ∀ (xs : List Nat) (m b delta h bias : Nat) (digits : List Nat)
      (dE hE bE : Nat), encInner m b xs delta h bias = (digits, dE, hE, bE) →
      ∀ c ∈ digits, ∃ d, d < 36 ∧ c = punyDigitChar d := by
  intro xs
  induction xs with
  | nil =>
    intro m b delta h bias digits dE hE bE henc c hc
    rw [encInner] at henc
    simp only [Prod.mk.injEq] at henc
    obtain ⟨rfl, -, -, -⟩ := henc
    simp at hc
  | cons a xs' ih =>
    intro m b delta h bias digits dE hE bE henc c hc
    rw [encInner] at henc
    by_cases h1 : a < m
    · rw [if_pos h1] at henc
      exact ih _ _ _ _ _ _ _ _ _ henc c hc
    · by_cases h2 : a = m
      · rw [if_neg h1, if_pos h2] at henc
        cases hrec : encInner m b xs' 0 (h + 1)
            (punycodAdapt delta (h + 1) (h == b)) with
        | mk digits' rest4 =>
        obtain ⟨d2, h2', b2⟩ := rest4
        simp only [hrec, Prod.mk.injEq] at henc
        obtain ⟨rfl, -, -, -⟩ := henc
        rcases List.mem_append.mp hc with hm | hm
        · exact encVarint_digits _ _ _ _ c hm
        · exact ih _ _ _ _ _ _ _ _ _ hrec c hm
      · rw [if_neg h1, if_neg h2] at henc
        exact ih _ _ _ _ _ _ _ _ _ henc c hc

theorem encMain_digits :
    ∀ (fuel : Nat) (x : List Nat) (b n delta h bias : Nat),
      ∀ c ∈ encMain x b fuel n delta h bias,
        ∃ d, d < 36 ∧ c = punyDigitChar d := by
  intro fuel
  induction fuel with
  | zero => intro x b n delta h bias c hc; simp [encMain] at hc
  | succ f ih =>
    intro x b n delta h bias c hc
    rw [encMain] at hc
    by_cases hcase : h < x.length
    · rw [if_pos hcase] at hc
      cases hma : minAbove n x with
      | none => rw [hma] at hc; simp at hc
      | some m =>
        rw [hma] at hc
        cases hrec : encInner m b x (delta + (m - n) * (h + 1)) h bias with
        | mk digits rest4 =>
        obtain ⟨d2, h2, b2⟩ := rest4
        simp only [hrec] at hc
        rcases List.mem_append.mp hc with hm | hm
        · exact encInner_digits _ _ _ _ _ _ _ _ _ _ hrec c hm
        · exact ih _ _ _ _ _ _ c hm
    · rw [if_neg hcase] at hc
      simp at hc

theorem lastIdxOf?_not_mem : ∀ (l : List Nat) (d : Nat), d ∉ l →
    lastIdxOf? l d = none := by
  intro l d
  induction l with
  | nil => intro h; rfl
  | cons c t ih =>
    intro h
    rw [lastIdxOf?, ih (fun hm => h (List.mem_cons_of_mem c hm))]
    rw [if_neg (fun (hc : c = d) => h (hc ▸ List.mem_cons_self c t))]

theorem lastIdxOf?_append : ∀ (A B : List Nat) (d : Nat),
    lastIdxOf? (A ++ B) d =
      match lastIdxOf? B d with
      | some j => some (A.length + j)
      | none => lastIdxOf? A d := by
  intro A B d
  induction A with
  | nil =>
    cases hB : lastIdxOf? B d with
    | none => simp [hB, lastIdxOf?]
    | some j => simp [hB]
  | cons a A' ih =>
    rw [List.cons_append, lastIdxOf?, ih]
    cases hB : lastIdxOf? B d with
    | none =>
      simp only
      rw [lastIdxOf?]
    | some j =>
      simp only [List.length_cons]
      congr 1
      omega

/-- C1: decoding is a left inverse of the reference RFC 3492 encoder.
For every sequence of Unicode code points, the label the encoder
produces decodes back to the original string (equality of the resulting
JavaScript strings, i.e. of their UTF-16 unit sequences, since the
decoder's output buffer holds the `String.fromCodePoint` encodings). -/
theorem C1_roundtrip (x : List Nat) (hx : ∀ c ∈ x, c ≤ 0x10FFFF) :
    punycodeDecode (punycodeEncode x) = .ok ((x.map utf16Encode).flatten) := by
  have hbla : ∀ c ∈ x.filter (fun c => decide (c < punyInitialN)), c < 0x80 := by
    intro c hc
    have := List.of_mem_filter hc
    simp only [decide_eq_true_eq] at this
    simpa [punyInitialN] using this
  have hcheck : checkBasic (x.filter (fun c => decide (c < punyInitialN))) =
      .ok ((x.filter (fun c => decide (c < punyInitialN))).map (fun c => [c])) := by
    rcases checkBasic_cases (x.filter (fun c => decide (c < punyInitialN))) with
      ⟨-, c, hc, hge⟩ | ⟨hok, -⟩
    · have := hbla c hc
      omega
    · exact hok
  have houtmap : (x.filter (fun c => decide (c < punyInitialN))).map
        (fun c => [c]) =
      (x.filter (fun c => decide (c < punyInitialN))).map utf16Encode := by
    refine List.map_congr_left ?_
    intro c hc
    have := hbla c hc
    rw [utf16Encode, if_pos (by omega)]
  have hnodelim : punyDelim ∉ encMain x
      (x.filter (fun c => decide (c < punyInitialN))).length (x.length + 1)
      punyInitialN 0 (x.filter (fun c => decide (c < punyInitialN))).length
      punyInitialBias := by
    intro hmem
    obtain ⟨d, hd36, hdc⟩ := encMain_digits _ _ _ _ _ _ _ _ hmem
    exact punyDigitChar_ne_delim d hd36 (by rw [← hdc]; rfl)
  have hmaindec := encMain_decode (x.length + 1) x
    (x.filter (fun c => decide (c < punyInitialN))).length punyInitialN 0
    (x.filter (fun c => decide (c < punyInitialN))).length punyInitialBias 0
    punyInitialN hx (by decide) le_rfl (by simp)
    (by rw [List.countP_eq_length_filter]) le_rfl (by simp)
    (by have := List.length_filter_le (fun c => decide (c < punyInitialN)) x
        omega)
  by_cases hb : 0 < (x.filter (fun c => decide (c < punyInitialN))).length
  · -- nonempty basic portion: the label is  basic ++ "-" ++ digits
    have hlabel : punycodeEncode x =
        (x.filter (fun c => decide (c < punyInitialN)) ++ [punyDelim]) ++
          encMain x (x.filter (fun c => decide (c < punyInitialN))).length
            (x.length + 1) punyInitialN 0
            (x.filter (fun c => decide (c < punyInitialN))).length
            punyInitialBias := by
      rw [punycodeEncode]
      simp only [if_pos hb]
    have hbidx : punyBasicIdx (punycodeEncode x) =
        (x.filter (fun c => decide (c < punyInitialN))).length := by
      rw [hlabel, punyBasicIdx, lastIdxOf?_append,
        lastIdxOf?_not_mem _ _ hnodelim, lastIdxOf?_append]
      simp [lastIdxOf?]
    have htake : (punycodeEncode x).take
        (x.filter (fun c => decide (c < punyInitialN))).length =
        x.filter (fun c => decide (c < punyInitialN)) := by
      rw [hlabel, List.append_assoc]
      exact List.take_left _ _
    have hdrop : (punycodeEncode x).drop
        ((x.filter (fun c => decide (c < punyInitialN))).length + 1) =
        encMain x (x.filter (fun c => decide (c < punyInitialN))).length
          (x.length + 1) punyInitialN 0
          (x.filter (fun c => decide (c < punyInitialN))).length
          punyInitialBias := by
      rw [hlabel, show (x.filter (fun c => decide (c < punyInitialN))).length + 1 =
        (x.filter (fun c => decide (c < punyInitialN)) ++ [punyDelim]).length by
          simp]
      exact List.drop_left _ _
    simp only [punycodeDecode, bind, Except.bind, pure, Except.pure, hbidx,
      htake, hcheck, if_pos hb, hdrop]
    rw [houtmap, hmaindec]
  · -- empty basic portion: the label is just the digits
    have hfilnil : x.filter (fun c => decide (c < punyInitialN)) = [] :=
      List.length_eq_zero.mp (by omega)
    rw [hfilnil] at hmaindec hnodelim
    simp only [List.length_nil, List.map_nil] at hmaindec hnodelim
    have hlabel : punycodeEncode x =
        encMain x 0 (x.length + 1) punyInitialN 0 0 punyInitialBias := by
      simp only [punycodeEncode, hfilnil, List.length_nil]
      simp
    have hbidx : punyBasicIdx (punycodeEncode x) = 0 := by
      rw [hlabel, punyBasicIdx, lastIdxOf?_not_mem _ _ hnodelim]
      rfl
    simp only [punycodeDecode, bind, Except.bind, pure, Except.pure, hbidx]
    rw [List.take_zero]
    have hch0 : checkBasic [] = .ok [] := rfl
    rw [hch0]
    simp only [if_neg (by omega : ¬(0 : Nat) > 0), List.drop_zero]
    rw [hlabel, hmaindec]

/-- C1 witness: the two-code-point string `\u65E5\u672C` round-trips
through its Punycode label `wgv71a`. -/
theorem C1_roundtrip_witness :
    (∀ c ∈ [26085, 26412], c ≤ 0x10FFFF) ∧
    punycodeDecode (punycodeEncode [26085, 26412]) = .ok [26085, 26412] :=
  ⟨by decide, by rw [C1_roundtrip [26085, 26412] (by decide)]; rfl⟩
